import Mathlib

/-!
Shallow embedding of the GIF decoding core of the `e-ink-pi` repository
(`src/formats/gif`, `src/formats/bits.rs`, `src/image_buffer.rs`) and proofs
about the embedded functions.

Conventions of the embedding:
* a byte stream is a `List Nat` whose well-formed elements are `< 256`;
* readers are modelled by explicit state passing: a parser takes the input
  list and returns the parsed value together with the rest of the input;
* Rust `panic!` / `todo!` / `unwrap` failures are modelled by a dedicated
  outcome constructor where they can occur;
* Rust strings that only serve as diagnostics are kept as `String`; strings
  built from input bytes (header signature / version) are kept as the raw
  byte lists.
-/

namespace EInkPi

/-- `BitsReadError` from `src/formats/bits.rs` (the `OtherIo` case cannot
    arise for in-memory inputs and is omitted). -/
inductive BitsReadError
  | UnexpectedEOF
  | UnsufficiantTypeSize
  | ConvertFromU8
  deriving DecidableEq, Repr

----------------------------------------------------------------------------
-- colors/rgb.rs
----------------------------------------------------------------------------

/-- `RGB<u8>` from `src/colors/rgb.rs`: three 8-bit subpixel components. -/
structure RGB where
  r : Nat
  g : Nat
  b : Nat
  deriving DecidableEq, Repr

/-- `RGB::default()` = `DEFAULT_MIN_VALUE` = all components zero. -/
def RGB.default : RGB := ⟨0, 0, 0⟩

/-- `u16::from_le_bytes([lo, hi])`. -/
def u16_from_le_bytes (lo hi : Nat) : Nat := lo ||| (hi <<< 8)

----------------------------------------------------------------------------
-- formats/gif/blocks/logical_screen_descriptor.rs
----------------------------------------------------------------------------

/-- `LogicalScreenDescriptor` from `logical_screen_descriptor.rs`. -/
structure LogicalScreenDescriptor where
  logical_screen_width : Nat
  logical_screen_height : Nat
  flags : Nat
  background_color_index : Nat
  pixel_aspect_ratio : Nat
  deriving DecidableEq, Repr

namespace LogicalScreenDescriptor

def GLOBAL_COLOR_TABLE_FLAG_BIT : Nat := 0b10000000
def COLOR_RESOLUTION_BITS : Nat := 0b1110000
def COLOR_RESOLUTION_OFFSET : Nat := 4
def SORT_FLAG_BIT : Nat := 0b1000
/-- The source constant is literally `0b0` (`GLOBAL_COLOR_TABLE_SIZE_BITS`). -/
def GLOBAL_COLOR_TABLE_SIZE_BITS : Nat := 0b0
def GLOBAL_COLOR_TABLE_SIZE_OFFSET : Nat := 0

def global_color_table_flag (d : LogicalScreenDescriptor) : Bool :=
  d.flags &&& GLOBAL_COLOR_TABLE_FLAG_BIT != 0

def color_resolution (d : LogicalScreenDescriptor) : Nat :=
  (d.flags &&& COLOR_RESOLUTION_BITS) >>> COLOR_RESOLUTION_OFFSET

def sort_flag (d : LogicalScreenDescriptor) : Bool :=
  d.flags &&& SORT_FLAG_BIT != 0

def global_color_table_size (d : LogicalScreenDescriptor) : Nat :=
  (d.flags &&& GLOBAL_COLOR_TABLE_SIZE_BITS) >>> GLOBAL_COLOR_TABLE_SIZE_OFFSET

/-- `LogicalScreenDescriptor::from(&[u8; 7])`. -/
def from_bytes (b0 b1 b2 b3 b4 b5 b6 : Nat) : LogicalScreenDescriptor :=
  { logical_screen_width := u16_from_le_bytes b0 b1
    logical_screen_height := u16_from_le_bytes b2 b3
    flags := b4
    background_color_index := b5
    pixel_aspect_ratio := b6 }

/-- `LogicalScreenDescriptor::parse`: `read_exact` of 7 bytes, then convert.
    The error case is the propagated io error. -/
def parse (input : List Nat) :
    Except Unit (LogicalScreenDescriptor × List Nat) :=
  match input with
  | b0 :: b1 :: b2 :: b3 :: b4 :: b5 :: b6 :: rest =>
      .ok (from_bytes b0 b1 b2 b3 b4 b5 b6, rest)
  | _ => .error ()

end LogicalScreenDescriptor

----------------------------------------------------------------------------
-- formats/gif/blocks/color_table.rs
----------------------------------------------------------------------------

def MAX_COLOR_TABLE_SIZE : Nat := 256
def MAX_COLOR_TABLE_DATA_SIZE : Nat := 3 * MAX_COLOR_TABLE_SIZE

/-- `ColorTableParseError` from `color_table.rs`. -/
inductive ColorTableParseError
  | TooLarge
  | NotEnoughData
  | Io
  deriving DecidableEq, Repr

/-- `ColorTable` from `color_table.rs`.  The fixed 256-entry array
    `data: [RGB<u8>; 256]` is modelled as a total function on indices. -/
structure ColorTable where
  data : Nat → RGB
  size : Nat
  sorted : Bool

namespace ColorTable

/-- `ColorTable::calculate_size`: literally `3 * (2 << (size_flag + 1))`. -/
def calculate_size (size_flag : Nat) : Nat :=
  3 * (2 <<< (size_flag + 1))

/-- The fill loop of `try_from_reader`: `for i in (0..n).step_by(3)`,
    `data[i/3] = RGB(bytes[i], bytes[i+1], bytes[i+2])`; the read buffer is
    zero-initialised past the `n` bytes actually read, and entries whose
    triple was not written keep `RGB::default()`. -/
def fill_data (bytes : List Nat) : Nat → RGB := fun index =>
  if 3 * index < bytes.length then
    { r := bytes.getD (3 * index) 0
      g := bytes.getD (3 * index + 1) 0
      b := bytes.getD (3 * index + 2) 0 }
  else RGB.default

/-- `ColorTable::try_from_reader`, for the slice readers the decoder uses:
    `reader.take(size).read(&mut buf)` reads `min size input.length` bytes.
    `Ok(0)` is treated by the source as "read to end" and returns the
    zero-initialised table. -/
def try_from_reader (input : List Nat) (size_flag : Nat) (sorted : Bool) :
    Except ColorTableParseError (ColorTable × List Nat) :=
  let size := calculate_size size_flag
  if size > MAX_COLOR_TABLE_SIZE then .error .TooLarge
  else
    let n := min size input.length
    if n = 0 then
      .ok ({ data := fun _ => RGB.default, size := size, sorted := sorted },
           input.drop n)
    else if n = size then
      .ok ({ data := fill_data (input.take n), size := size, sorted := sorted },
           input.drop n)
    else
      .error .NotEnoughData

/-- `ColorTable::lookup_fallback`. -/
def lookup_fallback (t : ColorTable) (color_index : Nat) : RGB :=
  if color_index ≥ t.size then RGB.default else t.data color_index

end ColorTable

----------------------------------------------------------------------------
-- formats/gif/blocks/header.rs
----------------------------------------------------------------------------

def GIF_CONST_SIGNATURE : List Nat := [0x47, 0x49, 0x46]
def GIF_CONST_VERSION_87A : List Nat := [0x38, 0x37, 0x61]
def GIF_CONST_VERSION_89A : List Nat := [0x38, 0x39, 0x61]

inductive Version
  | Version87a
  | Version89a
  deriving DecidableEq, Repr

/-- `HeaderParseError` from `header.rs`; the strings built from input bytes
    are kept as byte lists. -/
inductive HeaderParseError
  | Signature (found : List Nat)
  | Version (found : List Nat)
  | Io
  deriving DecidableEq, Repr

structure Header where
  version : Version
  deriving DecidableEq, Repr

namespace Header

/-- `Header::try_from(&[u8; 6])`.  Note the source's unknown-version branch
    returns `HeaderParseError::Signature`, not `::Version`. -/
def try_from (value : List Nat) : Except HeaderParseError Header :=
  let signature_bytes := value.take 3
  if signature_bytes ≠ GIF_CONST_SIGNATURE then
    .error (.Signature signature_bytes)
  else
    let version_bytes := (value.drop 3).take 3
    if version_bytes = GIF_CONST_VERSION_87A then .ok ⟨.Version87a⟩
    else if version_bytes = GIF_CONST_VERSION_89A then .ok ⟨.Version89a⟩
    else .error (.Signature version_bytes)

/-- `Header::parse`: `read_exact` of 6 bytes then `try_from`. -/
def parse (input : List Nat) : Except HeaderParseError (Header × List Nat) :=
  match input with
  | b0 :: b1 :: b2 :: b3 :: b4 :: b5 :: rest =>
      match try_from [b0, b1, b2, b3, b4, b5] with
      | .ok h => .ok (h, rest)
      | .error e => .error e
  | _ => .error .Io

end Header

----------------------------------------------------------------------------
-- formats/gif/blocks/mod.rs and categories.rs
----------------------------------------------------------------------------

inductive BlockSeparator
  | Image
  | Trailer
  | Extension
  deriving DecidableEq, BEq, Repr

inductive BlockLabelType
  | Graphic
  | Trailer
  | Control
  | SpecialPurpose
  deriving DecidableEq, BEq, Repr

namespace BlockSeparator

/-- `BlockSeparator::try_from_u8`. -/
def try_from_u8 (value : Nat) : Option BlockSeparator :=
  if value = 0x2c then some .Image
  else if value = 0x3B then some .Trailer
  else if value = 0x21 then some .Extension
  else none

/-- `BlockSeparator::can_be_type`. -/
def can_be_type (s : BlockSeparator) (check : BlockLabelType) : Bool :=
  match s with
  | .Image => check == .Graphic
  | .Trailer => check == .Trailer
  | .Extension => check != .Trailer

end BlockSeparator

namespace BlockLabelType

/-- `BlockLabelType::from(u8)` (label byte ranges). -/
def from_u8 (value : Nat) : BlockLabelType :=
  if value = 0x3B then .Trailer
  else if value ≤ 0x7F then .Graphic
  else if value ≤ 0xF9 then .Control
  else .SpecialPurpose

end BlockLabelType

inductive BlockLabel
  | ImageDescriptor
  | PlainTextExtension
  | GraphicControlExtension
  | Trailer
  | CommentExtension
  | ApplicationExtension
  deriving DecidableEq, Repr

namespace BlockLabel

/-- `BlockLabel::try_from_u8`. -/
def try_from_u8 (value : Nat) : Option BlockLabel :=
  if value = 0x2C then some .ImageDescriptor
  else if value = 0x01 then some .PlainTextExtension
  else if value = 0xF9 then some .GraphicControlExtension
  else if value = 0x3B then some .Trailer
  else if value = 0xFE then some .CommentExtension
  else if value = 0xFF then some .ApplicationExtension
  else none

end BlockLabel

inductive ControlBlocks
  | GraphicsControlExtension
  | UnknownBlock
  deriving DecidableEq, Repr

inductive GraphicRenderingBlocks
  | TableBasedImage
  | PlainTextExtension
  | UnknownBlock
  deriving DecidableEq, Repr

inductive SpecialPurposeBlocks
  | UnknownBlock
  | CommentExtension
  | ApplicationExtension
  deriving DecidableEq, Repr

/-- `BlockLabelType::from(BlockLabel)` (categories in `mod.rs`). -/
def BlockLabel.label_type : BlockLabel → BlockLabelType
  | .ImageDescriptor => .Graphic
  | .PlainTextExtension => .Graphic
  | .GraphicControlExtension => .Control
  | .Trailer => .Trailer
  | .CommentExtension => .SpecialPurpose
  | .ApplicationExtension => .SpecialPurpose

/-- `GraphicRenderingBlocks::try_from(BlockLabel)` (categories.rs). -/
def GraphicRenderingBlocks.try_from (value : BlockLabel) :
    Except Unit GraphicRenderingBlocks :=
  if value.label_type ≠ .Graphic then .error ()
  else match value with
    | .ImageDescriptor => .ok .TableBasedImage
    | .PlainTextExtension => .ok .PlainTextExtension
    | _ => .ok .UnknownBlock

/-- `ControlBlocks::try_from(BlockLabel)` (categories.rs). -/
def ControlBlocks.try_from (value : BlockLabel) : Except Unit ControlBlocks :=
  if value.label_type ≠ .Control then .error ()
  else match value with
    | .GraphicControlExtension => .ok .GraphicsControlExtension
    | _ => .ok .UnknownBlock

/-- `SpecialPurposeBlocks::try_from(BlockLabel)` (categories.rs). -/
def SpecialPurposeBlocks.try_from (value : BlockLabel) :
    Except Unit SpecialPurposeBlocks :=
  if value.label_type ≠ .SpecialPurpose then .error ()
  else match value with
    | .CommentExtension => .ok .CommentExtension
    | .ApplicationExtension => .ok .ApplicationExtension
    | _ => .ok .UnknownBlock

----------------------------------------------------------------------------
-- formats/gif/errors.rs (GIFParseError) and better_decoder.rs grammar states
----------------------------------------------------------------------------

/-- `GIFParseError` from `errors.rs`; byte-derived strings are byte lists. -/
inductive GIFParseError
  | Io (reason : String)
  | UnknownSignature (s : List Nat)
  | UnknownVersion (s : List Nat)
  | UnexpectedBlockDiscriminant (b : Nat)
  | UnexpectedExtensionLabel (b : Nat)
  | UnexpectedBlockSize (got : Nat) (expected : Nat)
  | InvalidBlockTerminator
  | InvalidColorTable (reason : String)
  | InvalidLZWCode
  | ImageDataError
  deriving DecidableEq, Repr

/-- `ReadNext` from `better_decoder.rs`: the grammar states. -/
inductive ReadNext
  | Header
  | LogicalScreenDescriptor
  | GlobalColorTable (size : Nat) (sorted : Bool)
  | BlockType (restriction : Option BlockLabelType)
  | ExtensionType (restriction : Option BlockLabelType)
  | ControlBlock (b : ControlBlocks)
  | GraphicsBlock (b : GraphicRenderingBlocks)
  | SpecialPurposeBlock (b : SpecialPurposeBlocks)
  | End
  deriving DecidableEq, Repr

/-- The `ReadNext::BlockType(restriction)` arm of `GIFDecoder::next_state`:
    read one discriminant byte, validate it, check the restriction with
    `is_some_and(can_be_type)`, and dispatch. -/
def next_state_block_type (restriction : Option BlockLabelType)
    (input : List Nat) : Except GIFParseError (ReadNext × List Nat) :=
  match input with
  | [] => .error (.Io "io error (likely EOF) during block type label reading")
  | b :: rest =>
    match BlockSeparator.try_from_u8 b with
    | none => .error (.UnexpectedBlockDiscriminant b)
    | some separator =>
      if (restriction.map (fun restriction_type =>
            separator.can_be_type restriction_type)).getD false then
        .error (.UnexpectedBlockDiscriminant b)
      else
        match separator with
        | .Image => .ok (.GraphicsBlock .TableBasedImage, rest)
        | .Extension => .ok (.ExtensionType restriction, rest)
        | .Trailer => .ok (.End, rest)

----------------------------------------------------------------------------
-- image_buffer.rs, at the instantiation the decoder uses:
-- ImageBuffer<RGB<u8>, Vec<u8>> (CHANNEL_COUNT = 3)
----------------------------------------------------------------------------

/-- `ImageBuffer<RGB<u8>, Vec<u8>>`: the subpixel vector `data` is modelled
    as a total function on indices; the buffer invariant is
    `data` meaningful on `[0, width*height*3)`. -/
structure ImageBuffer where
  width : Nat
  height : Nat
  data : Nat → Nat

namespace ImageBuffer

def CHANNEL_COUNT : Nat := 3

/-- `ImageBuffer::new`: zero-initialised. -/
def new (width height : Nat) : ImageBuffer :=
  { width := width, height := height, data := fun _ => 0 }

/-- `get_pixel_range(x, y).start` = `(y*width + x) * 3`. -/
def pixel_start (b : ImageBuffer) (x y : Nat) : Nat :=
  (y * b.width + x) * CHANNEL_COUNT

/-- `get_pixel` (via `P::from_slice` on the 3-byte range). -/
def get_pixel (b : ImageBuffer) (x y : Nat) : RGB :=
  { r := b.data (b.pixel_start x y)
    g := b.data (b.pixel_start x y + 1)
    b := b.data (b.pixel_start x y + 2) }

/-- `put_pixel`: overwrite the 3-byte range of pixel `(x, y)`. -/
def put_pixel (b : ImageBuffer) (x y : Nat) (p : RGB) : ImageBuffer :=
  { b with data := fun i =>
      if i = b.pixel_start x y then p.r
      else if i = b.pixel_start x y + 1 then p.g
      else if i = b.pixel_start x y + 2 then p.b
      else b.data i }

/-- The inner `while x < image_w && x < offset_x + width` loop of
    `put_rect`; `image_w` is read once before the loops, as in the source. -/
def put_rect_x_loop (image_w offset_x offset_y width : Nat)
    (pixels : List RGB) (y : Nat) (b : ImageBuffer) (x : Nat) : ImageBuffer :=
  if x < image_w ∧ x < offset_x + width then
    put_rect_x_loop image_w offset_x offset_y width pixels y
      (b.put_pixel x y
        (pixels.getD ((y - offset_y) * width + (x - offset_x)) RGB.default))
      (x + 1)
  else b
termination_by min image_w (offset_x + width) - x
decreasing_by
  omega

/-- The outer `while y < image_h && y < offset_y + height` loop of
    `put_rect`. -/
def put_rect_y_loop (image_w image_h offset_x offset_y width height : Nat)
    (pixels : List RGB) (b : ImageBuffer) (y : Nat) : ImageBuffer :=
  if y < image_h ∧ y < offset_y + height then
    put_rect_y_loop image_w image_h offset_x offset_y width height pixels
      (put_rect_x_loop image_w offset_x offset_y width pixels y b offset_x)
      (y + 1)
  else b
termination_by min image_h (offset_y + height) - y
decreasing_by
  omega

/-- `ImageBuffer::put_rect`. -/
def put_rect (b : ImageBuffer) (offset_x offset_y width height : Nat)
    (pixels : List RGB) : Except Unit ImageBuffer :=
  if pixels.length < width * height then .error ()
  else
    .ok (put_rect_y_loop b.width b.height offset_x offset_y width height
          pixels b offset_y)

theorem put_pixel_width (b : ImageBuffer) (x y : Nat) (p : RGB) :
    (b.put_pixel x y p).width = b.width := rfl

theorem put_pixel_height (b : ImageBuffer) (x y : Nat) (p : RGB) :
    (b.put_pixel x y p).height = b.height := rfl

theorem pixel_start_inj (b : ImageBuffer) (x y x' y' : Nat)
    (hx : x < b.width) (hx' : x' < b.width)
    (hne : ¬(x' = x ∧ y' = y)) : y' * b.width + x' ≠ y * b.width + x := by
  intro h
  rcases Nat.lt_trichotomy y' y with hy | hy | hy
  · have : y' * b.width + x' < y * b.width + x := by
      calc y' * b.width + x' < y' * b.width + b.width := by omega
      _ = (y' + 1) * b.width := by ring
      _ ≤ y * b.width := Nat.mul_le_mul_right _ (by omega)
      _ ≤ y * b.width + x := Nat.le_add_right _ _
    omega
  · subst hy
    have : x' = x := by omega
    exact hne ⟨this, rfl⟩
  · have : y * b.width + x < y' * b.width + x' := by
      calc y * b.width + x < y * b.width + b.width := by omega
      _ = (y + 1) * b.width := by ring
      _ ≤ y' * b.width := Nat.mul_le_mul_right _ (by omega)
      _ ≤ y' * b.width + x' := Nat.le_add_right _ _
    omega

/-- Reading a pixel after `put_pixel`: the updated pixel if the coordinates
    agree, the old one otherwise (both columns inside the canvas width, so
    that distinct coordinates use disjoint ranges). -/
theorem get_pixel_put_pixel (b : ImageBuffer) (x y x' y' : Nat) (p : RGB)
    (hx : x < b.width) (hx' : x' < b.width) :
    (b.put_pixel x y p).get_pixel x' y' =
      if x' = x ∧ y' = y then p else b.get_pixel x' y' := by
  by_cases hc : x' = x ∧ y' = y
  · obtain ⟨rfl, rfl⟩ := hc
    have h1 : (y' * b.width + x') * 3 + 1 ≠ (y' * b.width + x') * 3 := by omega
    have h2 : (y' * b.width + x') * 3 + 2 ≠ (y' * b.width + x') * 3 := by omega
    have h3 : (y' * b.width + x') * 3 + 2 ≠ (y' * b.width + x') * 3 + 1 := by
      omega
    simp [get_pixel, put_pixel, pixel_start, CHANNEL_COUNT, h1, h2, h3]
  · have hne := pixel_start_inj b x y x' y' hx hx' hc
    have h1 : (y' * b.width + x') * 3 ≠ (y * b.width + x) * 3 := by omega
    have h2 : (y' * b.width + x') * 3 ≠ (y * b.width + x) * 3 + 1 := by omega
    have h3 : (y' * b.width + x') * 3 ≠ (y * b.width + x) * 3 + 2 := by omega
    have h4 : (y' * b.width + x') * 3 + 1 ≠ (y * b.width + x) * 3 := by omega
    have h5 : (y' * b.width + x') * 3 + 1 ≠ (y * b.width + x) * 3 + 1 := by
      omega
    have h6 : (y' * b.width + x') * 3 + 1 ≠ (y * b.width + x) * 3 + 2 := by
      omega
    have h7 : (y' * b.width + x') * 3 + 2 ≠ (y * b.width + x) * 3 := by omega
    have h8 : (y' * b.width + x') * 3 + 2 ≠ (y * b.width + x) * 3 + 1 := by
      omega
    have h9 : (y' * b.width + x') * 3 + 2 ≠ (y * b.width + x) * 3 + 2 := by
      omega
    simp [get_pixel, put_pixel, pixel_start, CHANNEL_COUNT, hc,
      h1, h2, h3, h4, h5, h6, h7, h8, h9]

theorem put_rect_x_loop_width (image_w offset_x offset_y width : Nat)
    (pixels : List RGB) (y : Nat) (b : ImageBuffer) (x : Nat) :
    (put_rect_x_loop image_w offset_x offset_y width pixels y b x).width =
        b.width ∧
    (put_rect_x_loop image_w offset_x offset_y width pixels y b x).height =
        b.height := by
  induction b, x using
    put_rect_x_loop.induct image_w offset_x offset_y width pixels y with
  | case1 b x h ih =>
    rw [put_rect_x_loop, if_pos h]
    exact ih
  | case2 b x h =>
    rw [put_rect_x_loop, if_neg h]
    exact ⟨rfl, rfl⟩

/-- Characterisation of the inner loop of `put_rect`: starting at column
    `x₀` on row `y`, the loop writes `pixels[(y-oy)*w + (x-ox)]` to every
    `(x, y)` with `x₀ ≤ x < min image_w (ox+w)` and changes nothing else. -/
theorem put_rect_x_loop_get (image_w offset_x offset_y width : Nat)
    (pixels : List RGB) (y : Nat) (b : ImageBuffer) (x : Nat)
    (qx qy : Nat) (hqx : qx < image_w) :
    b.width = image_w →
    (put_rect_x_loop image_w offset_x offset_y width pixels y b x).get_pixel
        qx qy =
      if qy = y ∧ x ≤ qx ∧ qx < offset_x + width then
        pixels.getD ((y - offset_y) * width + (qx - offset_x)) RGB.default
      else b.get_pixel qx qy := by
  induction b, x using
    put_rect_x_loop.induct image_w offset_x offset_y width pixels y with
  | case1 b x h ih =>
    intro hw
    rw [put_rect_x_loop, if_pos h]
    rw [ih (by rw [put_pixel_width]; exact hw)]
    rw [get_pixel_put_pixel b x y qx qy _ (by omega) (by omega)]
    by_cases hq : qy = y ∧ x ≤ qx ∧ qx < offset_x + width
    · obtain ⟨rfl, hxq, hlt⟩ := hq
      by_cases hqe : qx = x
      · subst hqe
        rw [if_neg (by omega), if_pos ⟨rfl, rfl⟩, if_pos ⟨rfl, le_refl _, hlt⟩]
      · rw [if_pos ⟨rfl, by omega, hlt⟩, if_pos ⟨rfl, by omega, hlt⟩]
    · rw [if_neg (by intro hc; exact hq ⟨hc.1, by omega, hc.2.2⟩), if_neg hq,
        if_neg (by intro hc; exact hq ⟨hc.2, by omega⟩)]
  | case2 b x h =>
    intro hw
    rw [put_rect_x_loop, if_neg h]
    rw [if_neg (by intro hc; omega)]

theorem put_rect_y_loop_dims (image_w image_h offset_x offset_y width height :
    Nat) (pixels : List RGB) (b : ImageBuffer) (y : Nat) :
    (put_rect_y_loop image_w image_h offset_x offset_y width height pixels b
        y).width = b.width ∧
    (put_rect_y_loop image_w image_h offset_x offset_y width height pixels b
        y).height = b.height := by
  induction b, y using
    put_rect_y_loop.induct image_w image_h offset_x offset_y width height
      pixels with
  | case1 b y h ih =>
    rw [put_rect_y_loop, if_pos h]
    have hx := put_rect_x_loop_width image_w offset_x offset_y width pixels y
      b offset_x
    omega
  | case2 b y h =>
    rw [put_rect_y_loop, if_neg h]
    exact ⟨rfl, rfl⟩

/-- Characterisation of the outer loop of `put_rect`. -/
theorem put_rect_y_loop_get (image_w image_h offset_x offset_y width height :
    Nat) (pixels : List RGB) (b : ImageBuffer) (y : Nat)
    (qx qy : Nat) (hqx : qx < image_w) :
    b.width = image_w →
    (put_rect_y_loop image_w image_h offset_x offset_y width height pixels b
        y).get_pixel qx qy =
      if y ≤ qy ∧ qy < image_h ∧ qy < offset_y + height ∧
          offset_x ≤ qx ∧ qx < offset_x + width then
        pixels.getD ((qy - offset_y) * width + (qx - offset_x)) RGB.default
      else b.get_pixel qx qy := by
  induction b, y using
    put_rect_y_loop.induct image_w image_h offset_x offset_y width height
      pixels with
  | case1 b y h ih =>
    intro hw
    rw [put_rect_y_loop, if_pos h]
    have hwx : (put_rect_x_loop image_w offset_x offset_y width pixels y b
        offset_x).width = b.width :=
      (put_rect_x_loop_width image_w offset_x offset_y width pixels y b
        offset_x).1
    rw [ih (by rw [hwx]; exact hw)]
    rw [put_rect_x_loop_get image_w offset_x offset_y width pixels y b
      offset_x qx qy hqx hw]
    by_cases hq : y ≤ qy ∧ qy < image_h ∧ qy < offset_y + height ∧
        offset_x ≤ qx ∧ qx < offset_x + width
    · obtain ⟨hyq, hqh, hqoy, hqox, hqow⟩ := hq
      by_cases hqe : qy = y
      · subst hqe
        rw [if_neg (by omega), if_pos ⟨rfl, hqox, hqow⟩,
          if_pos ⟨by omega, hqh, hqoy, hqox, hqow⟩]
      · rw [if_pos ⟨by omega, hqh, hqoy, hqox, hqow⟩,
          if_pos ⟨by omega, hqh, hqoy, hqox, hqow⟩]
    · rw [if_neg (by intro hc; exact hq ⟨by omega, hc.2⟩), if_neg hq,
        if_neg (by intro hc; exact hq ⟨by omega, by omega, by omega,
          hc.2.1, hc.2.2⟩)]
  | case2 b y h =>
    intro hw
    rw [put_rect_y_loop, if_neg h]
    rw [if_neg (by intro hc; omega)]

end ImageBuffer

----------------------------------------------------------------------------
-- formats/bits.rs: LittleEndianReader
----------------------------------------------------------------------------

namespace Bits

/-- `LittleEndianReader`: the 8-bit sliding buffer `value`, the count
    `bits` of bits still buffered in `value`, and the not-yet-pulled bytes
    of the underlying reader. -/
structure LittleEndianReader where
  value : Nat
  bits : Nat
  input : List Nat
  deriving DecidableEq, Repr

/-- The value of a byte list read as one little-endian integer. -/
def bytesVal : List Nat → Nat
  | [] => 0
  | b :: rest => b + 256 * bytesVal rest

/-- The whole remaining bit stream of a reader as one integer: bit `i` of
    `streamVal r` is bit `cursor + i` of the input viewed as a little-endian
    bit stream (buffered bits first, then the pending bytes). -/
def streamVal (r : LittleEndianReader) : Nat :=
  r.value + 2 ^ r.bits * bytesVal r.input

/-- Number of bits remaining in the stream. -/
def streamLen (r : LittleEndianReader) : Nat :=
  r.bits + 8 * r.input.length

/-- Reader states reachable by the implementation: the buffer holds fewer
    than 8 meaningful bits and the pending bytes are bytes. -/
def WF (r : LittleEndianReader) : Prop :=
  r.value < 2 ^ r.bits ∧ r.bits ≤ 7 ∧ ∀ b ∈ r.input, b < 256

instance (r : LittleEndianReader) : Decidable (WF r) := by
  unfold WF; infer_instance

/-- `LittleEndianReader::new`. -/
def new (input : List Nat) : LittleEndianReader := ⟨0, 0, input⟩

/-- `take_n`: `mask = 1u8.wrapping_shl(bits) - 1` (the shift amount is
    masked mod 8 by `wrapping_shl`), returns `value & mask` and shifts the
    buffer. -/
def take_n (r : LittleEndianReader) (k : Nat) : Nat × LittleEndianReader :=
  (r.value &&& (1 <<< (k % 8) - 1), ⟨r.value >>> k, r.bits - k, r.input⟩)

/-- The `while bits - pos >= 8` loop of `read_n`: pull whole bytes from the
    underlying reader, or-ing them into `intermediate` at `pos`. -/
def read_full_bytes : List Nat → Nat → Nat → Nat →
    Except BitsReadError (Nat × Nat × List Nat)
  | input, intermediate, pos, bits =>
    if 8 ≤ bits - pos then
      match input with
      | [] => .error .UnexpectedEOF
      | b :: rest =>
          read_full_bytes rest (intermediate ||| b <<< pos) (pos + 8) bits
    else .ok (intermediate, pos, input)

/-- `read_n::<U>(bits)` for an unsigned `U` with `U_BITS` bits (the final
    `U::from_u128` conversion is the range check against `2 ^ U_BITS`). -/
def read_n (r : LittleEndianReader) (U_BITS : Nat) (bits : Nat) :
    Except BitsReadError (Nat × LittleEndianReader) :=
  if U_BITS < bits then .error .UnsufficiantTypeSize
  else if bits ≤ r.bits then
    .ok ((take_n r bits).1, (take_n r bits).2)
  else
    match read_full_bytes r.input (take_n r r.bits).1 r.bits bits with
    | .error e => .error e
    | .ok (intermediate, pos, rest) =>
      if bits - pos ≠ 0 then
        match rest with
        | [] => .error .UnexpectedEOF
        | b :: rest' =>
          if intermediate ||| (take_n ⟨b, 8, rest'⟩ (bits - pos)).1 <<< pos
              < 2 ^ U_BITS then
            .ok (intermediate ||| (take_n ⟨b, 8, rest'⟩ (bits - pos)).1 <<< pos,
                 (take_n ⟨b, 8, rest'⟩ (bits - pos)).2)
          else .error .ConvertFromU8
      else
        if intermediate < 2 ^ U_BITS then
          .ok (intermediate, ⟨(take_n r r.bits).2.value, 0, rest⟩)
        else .error .ConvertFromU8

/-- Or-ing fresh bits above an occupied low range is addition. -/
theorem lor_shiftLeft_eq_add (a b k : Nat) (h : a < 2 ^ k) :
    a ||| b <<< k = a + 2 ^ k * b := by
  rw [Nat.shiftLeft_eq, Nat.mul_comm b (2 ^ k), Nat.lor_comm,
    ← Nat.mul_add_lt_is_or h b]
  omega

/-- Correctness of the byte-pulling loop of `read_n`: it stops with fewer
    than 8 bits missing, accumulates exactly the pulled bytes at the right
    positions, and fails with `UnexpectedEOF` when the input is at least a
    whole byte short. -/
theorem read_full_bytes_spec (bits : Nat) :
    ∀ (input : List Nat) (intermediate pos : Nat),
    intermediate < 2 ^ pos → (∀ b ∈ input, b < 256) → pos ≤ bits →
    (bits < pos + 8 * input.length + 8 →
      ∃ inter' pos' rest,
        read_full_bytes input intermediate pos bits = .ok (inter', pos', rest) ∧
        inter' < 2 ^ pos' ∧ bits - pos' < 8 ∧ pos ≤ pos' ∧ pos' ≤ bits ∧
        (∀ b ∈ rest, b < 256) ∧
        inter' + 2 ^ pos' * bytesVal rest =
          intermediate + 2 ^ pos * bytesVal input ∧
        pos' + 8 * rest.length = pos + 8 * input.length) ∧
    (pos + 8 * input.length + 8 ≤ bits →
      read_full_bytes input intermediate pos bits = .error .UnexpectedEOF) := by
  intro input
  induction input with
  | nil =>
    intro intermediate pos hi _ hpb
    constructor
    · intro hlt
      refine ⟨intermediate, pos, [], ?_, hi, by simp at hlt ⊢; omega,
        le_refl _, hpb, by simp, by simp [bytesVal], by simp⟩
      rw [read_full_bytes, if_neg (by simp at hlt; omega)]
    · intro hge
      rw [read_full_bytes, if_pos (by simp at hge; omega)]
  | cons b rest ih =>
    intro intermediate pos hi hb hpb
    by_cases hloop : 8 ≤ bits - pos
    · have hb256 : b < 256 := hb b (by simp)
      have hrest : ∀ x ∈ rest, x < 256 := fun x hx => hb x (by simp [hx])
      have hpow : (2 : Nat) ^ (pos + 8) = 2 ^ pos * 256 := by
        rw [pow_add]; norm_num
      have hinew : intermediate ||| b <<< pos < 2 ^ (pos + 8) := by
        rw [lor_shiftLeft_eq_add _ _ _ hi, hpow]
        have h1 : 2 ^ pos * (b + 1) = 2 ^ pos * b + 2 ^ pos := by ring
        have hble : b + 1 ≤ 256 := by omega
        have h2 : 2 ^ pos * (b + 1) ≤ 2 ^ pos * 256 :=
          Nat.mul_le_mul (Nat.le_refl _) hble
        omega
      have hpb' : pos + 8 ≤ bits := by omega
      have heq : read_full_bytes (b :: rest) intermediate pos bits =
          read_full_bytes rest (intermediate ||| b <<< pos) (pos + 8) bits := by
        rw [read_full_bytes, if_pos hloop]
      obtain ⟨ihs, ihe⟩ := ih (intermediate ||| b <<< pos) (pos + 8) hinew
        hrest hpb'
      constructor
      · intro hlt
        obtain ⟨inter', pos', rest', hok, h1, h2, h3, h4, h5, h6, h7⟩ :=
          ihs (by simp at hlt ⊢; omega)
        refine ⟨inter', pos', rest', by rw [heq]; exact hok, h1, h2,
          by omega, h4, h5, ?_, by simp at h7 ⊢; omega⟩
        rw [h6, lor_shiftLeft_eq_add _ _ _ hi]
        simp only [bytesVal]
        rw [hpow]
        ring
      · intro hge
        rw [heq]
        exact ihe (by simp at hge; omega)
    · constructor
      · intro _
        refine ⟨intermediate, pos, b :: rest, ?_, hi, by omega, le_refl _,
          hpb, hb, by simp, by simp⟩
        rw [read_full_bytes, if_neg hloop]
      · intro hge
        exfalso
        simp at hge
        omega

theorem two_pow_split (a c : Nat) (h : a ≤ c) :
    (2 : Nat) ^ c = 2 ^ a * 2 ^ (c - a) := by
  rw [← pow_add]
  congr 1
  omega

/-- The fast path of `take_n` for `k ≤ 7`: low `k` bits out, buffer shifted. -/
theorem take_n_eq (r : LittleEndianReader) (k : Nat) (hk : k ≤ 7) :
    take_n r k = (r.value % 2 ^ k, ⟨r.value / 2 ^ k, r.bits - k, r.input⟩) := by
  unfold take_n
  rw [Nat.mod_eq_of_lt (show k < 8 by omega), Nat.shiftLeft_eq, one_mul,
    Nat.and_pow_two_sub_one_eq_mod, Nat.shiftRight_eq_div_pow]

end Bits

----------------------------------------------------------------------------
-- formats/gif/lzw.rs
----------------------------------------------------------------------------

namespace LZW

/-- `LZWDecodeError` from `lzw.rs` (reasons kept; the `BitRead` payload is
    dropped — it cannot occur for in-memory inputs besides EOF). -/
inductive LZWDecodeError
  | UnexpectedEOF
  | InvalidMinimumCodeSize
  | TooLargeCode (found : Nat) (table_size : Nat)
  | PrefixMismatch (reason : String)
  | BitRead
  deriving DecidableEq, Repr

def MAX_TABLE_SIZE : Nat := 4096
def MAX_CODE_VALUE : Nat := 0xFFF

/-- Rust `usize::is_power_of_two` (false at 0). -/
def is_power_of_two (n : Nat) : Bool := decide (∃ k ≤ n, n = 2 ^ k)

/-- `CodeBook` from `lzw.rs`.  The fixed 4096-entry arrays are modelled as
    total functions: `prefixes` is the source's `prefix: [Option<(usize,
    usize)>; 4096]` and `suffixes` its `suffix: [u8; 4096]`. -/
structure CodeBook where
  prefixes : Nat → Option (Nat × Nat)
  suffixes : Nat → Nat
  next_index : Option Nat
  clear_code : Nat
  end_of_information_code : Nat

namespace CodeBook

/-- `CodeBook::new` followed by `init()`: predefined codes `[0,
    clear_code)` get `suffix[c] = c as u8` (a `u8` truncation, hence
    `% 256`) and `prefix[c] = None`; everything else keeps the array
    initialisers. -/
def new (minimum_code_size : Nat) : CodeBook :=
  let clear_code := 1 <<< minimum_code_size
  { prefixes := fun _ => none
    suffixes := fun code => if code < clear_code then code % 256 else 0
    next_index := none
    clear_code := clear_code
    end_of_information_code := clear_code + 1 }

/-- `CodeBook::is_full`. -/
def is_full (cb : CodeBook) : Bool :=
  match cb.next_index with
  | none => false
  | some x => decide (MAX_CODE_VALUE ≤ x)

/-- `CodeBook::increment_next_index`: returns the updated codebook and the
    `bool` the source returns (whether the new index is a power of two). -/
def increment_next_index (cb : CodeBook) : CodeBook × Bool :=
  if cb.is_full then (cb, false)
  else
    match cb.next_index with
    | none => ({ cb with next_index := some (cb.clear_code + 2) }, false)
    | some x =>
        ({ cb with next_index := some (x + 1) }, is_power_of_two (x + 1))

/-- `CodeBook::clear`: the loop body assigns the whole array, so the net
    effect is all-`None` exactly when the loop range is nonempty. -/
def clear (cb : CodeBook) : CodeBook :=
  { cb with
    next_index := none
    prefixes := if cb.clear_code + 2 < MAX_TABLE_SIZE then fun _ => none
                else cb.prefixes }

/-- `CodeBook::size`. -/
def size (cb : CodeBook) : Nat := cb.next_index.getD 0

/-- The array write `suffix[idx] = val`. -/
def set_suffix (cb : CodeBook) (idx val : Nat) : CodeBook :=
  { cb with suffixes := fun i => if i = idx then val else cb.suffixes i }

/-- The array write `prefix[idx] = Some entry`. -/
def register (cb : CodeBook) (idx : Nat) (entry : Nat × Nat) : CodeBook :=
  { cb with prefixes := fun i => if i = idx then some entry else cb.prefixes i }

end CodeBook

/-- The loop state of `LZWDecoder::decode`. -/
structure DecodeState where
  codebook : CodeBook
  output : List Nat
  reader : Bits.LittleEndianReader
  current_code_bits : Nat

/-- The outcome of one iteration of the decode loop. -/
inductive StepResult
  | next (s : DecodeState)
  | done (output : List Nat)
  | fail (e : LZWDecodeError)

/-- The advance-and-register phase at the end of a normal-flow iteration:
    `increment_next_index` (possibly growing the code width) and, when the
    codebook is not full, registration of the new incomplete code with
    `prefix = (output.len - current_decoded_length, current_decoded_length)`
    (`next_index.unwrap()` is modelled with `getD 0`; it is always `some`
    after the increment). -/
def advance_and_register (cb : CodeBook) (bits output_len cdl : Nat) :
    CodeBook × Nat :=
  let step := cb.increment_next_index
  let bits' := if step.2 then bits + 1 else bits
  let cb' :=
    if step.1.is_full then step.1
    else step.1.register (step.1.next_index.getD 0) (output_len - cdl, cdl)
  (cb', bits')

/-- One iteration of the loop of `LZWDecoder::decode`: read one code of
    `current_code_bits` bits, handle control codes, the full-codebook
    branch and the normal decode flow.  The slice `output[offset..offset+
    length]` is modelled by `(output.drop offset).take length` and the
    reads `output[offset]` by `getD`; the prefix-bound invariant (claim
    C10) shows these agree with the source's panicking accesses. -/
def decode_step (minimum_code_size : Nat) (s : DecodeState) : StepResult :=
  match Bits.read_n s.reader 16 s.current_code_bits with
  | .error .UnexpectedEOF => .fail .UnexpectedEOF
  | .error _ => .fail .BitRead
  | .ok (code, reader') =>
    if code = s.codebook.end_of_information_code then .done s.output
    else if code = s.codebook.clear_code then
      .next { s with
              reader := reader'
              current_code_bits := minimum_code_size + 1
              codebook := s.codebook.clear }
    else if s.codebook.is_full then
      if (match s.codebook.next_index with
          | some x => decide (x ≤ code)
          | none => false) ||
         (s.codebook.next_index.isNone && decide (s.codebook.clear_code ≤ code))
      then .fail (.TooLargeCode code s.codebook.size)
      else
        match s.codebook.prefixes code with
        | some (offset, length) =>
            .next { s with
                    reader := reader'
                    output := s.output ++ (s.output.drop offset).take length ++
                      [s.codebook.suffixes code] }
        | none =>
            .next { s with
                    reader := reader'
                    output := s.output ++ [s.codebook.suffixes code] }
    else
      match s.codebook.next_index with
      | none =>
          -- first code after init / clear: only predefined codes allowed
          if s.codebook.clear_code ≤ code then
            .fail (.TooLargeCode code s.codebook.size)
          else
            let output' := s.output ++ [s.codebook.suffixes code]
            let adv := advance_and_register s.codebook s.current_code_bits
              output'.length 1
            .next { codebook := adv.1, output := output', reader := reader',
                    current_code_bits := adv.2 }
      | some current_incomplete_code =>
          if code < current_incomplete_code then
            match s.codebook.prefixes code with
            | some (offset, length) =>
                let first_char := s.output.getD offset 0
                let output' := s.output ++ (s.output.drop offset).take length ++
                  [s.codebook.suffixes code]
                let cb1 :=
                  s.codebook.set_suffix current_incomplete_code first_char
                let adv := advance_and_register cb1 s.current_code_bits
                  output'.length (1 + length)
                .next { codebook := adv.1, output := output', reader := reader',
                        current_code_bits := adv.2 }
            | none =>
                let first_char := s.codebook.suffixes code
                let output' := s.output ++ [s.codebook.suffixes code]
                let cb1 :=
                  s.codebook.set_suffix current_incomplete_code first_char
                let adv := advance_and_register cb1 s.current_code_bits
                  output'.length 1
                .next { codebook := adv.1, output := output', reader := reader',
                        current_code_bits := adv.2 }
          else if code = current_incomplete_code then
            -- the KwKwK case
            match s.codebook.prefixes current_incomplete_code with
            | none => .fail (.PrefixMismatch "no prefix from last code")
            | some (offset, length) =>
                if length = 0 then
                  .fail (.PrefixMismatch "zero length prefix from last code")
                else
                  let first_char := s.output.getD offset 0
                  let cb1 :=
                    s.codebook.set_suffix current_incomplete_code first_char
                  let output' := s.output ++
                    (s.output.drop offset).take length ++ [first_char]
                  let adv := advance_and_register cb1 s.current_code_bits
                    output'.length (1 + length)
                  .next { codebook := adv.1, output := output', reader := reader',
                          current_code_bits := adv.2 }
          else .fail (.TooLargeCode code s.codebook.size)

/-- The initial loop state of `decode`. -/
def init_state (data : List Nat) (minimum_code_size : Nat) : DecodeState :=
  { codebook := CodeBook.new minimum_code_size
    output := []
    reader := Bits.new data
    current_code_bits := minimum_code_size + 1 }

/-- The decode loop, by fuel; each continuing iteration consumes at least
    one bit of input, so `streamLen + 1` fuel always suffices and the
    fuel-exhaustion arm is unreachable from `decode`. -/
def decode_loop (minimum_code_size : Nat) :
    Nat → DecodeState → Except LZWDecodeError (List Nat)
  | 0, _ => .error .UnexpectedEOF
  | fuel + 1, s =>
    match decode_step minimum_code_size s with
    | .next s' => decode_loop minimum_code_size fuel s'
    | .done out => .ok out
    | .fail e => .error e

/-- `LZWDecoder::decode`. -/
def decode (data : List Nat) (minimum_code_size : Nat) :
    Except LZWDecodeError (List Nat) :=
  if minimum_code_size ≤ 1 ∨ 11 ≤ minimum_code_size then
    .error .InvalidMinimumCodeSize
  else
    decode_loop minimum_code_size
      (Bits.streamLen (Bits.new data) + 1) (init_state data minimum_code_size)

/-- The codebook / code-width invariant of the decode loop, relative to
    the current output length: the reserved codes are fixed by
    `minimum_code_size`; `next_index` (when allocated) lies in
    `[clear_code+2, 4095]` and needs exactly `current_code_bits` bits;
    the width never exceeds 12; and every registered prefix entry is a
    nonempty in-bounds slice of the output. -/
def CBInv (mcs : Nat) (cb : CodeBook) (bits : Nat) (outlen : Nat) : Prop :=
  cb.clear_code = 2 ^ mcs ∧
  cb.end_of_information_code = 2 ^ mcs + 1 ∧
  (cb.next_index = none → bits = mcs + 1) ∧
  (∀ x, cb.next_index = some x → 2 ^ mcs + 2 ≤ x ∧ x ≤ 4095 ∧
      2 ^ (bits - 1) < x + 1 ∧ x + 1 ≤ 2 ^ bits ∧ mcs + 1 ≤ bits) ∧
  bits ≤ 12 ∧
  (∀ c o l, cb.prefixes c = some (o, l) → o + l ≤ outlen ∧ 1 ≤ l)

/-- The loop-state invariant (claims C5 and C10). -/
def Inv (mcs : Nat) (s : DecodeState) : Prop :=
  CBInv mcs s.codebook s.current_code_bits s.output.length

theorem is_power_of_two_iff (n : Nat) :
    is_power_of_two n = true ↔ ∃ k, n = 2 ^ k := by
  unfold is_power_of_two
  rw [decide_eq_true_iff]
  constructor
  · rintro ⟨k, -, hk⟩
    exact ⟨k, hk⟩
  · rintro ⟨k, hk⟩
    exact ⟨k, by rw [hk]; exact Nat.le_of_lt (Nat.lt_two_pow k), hk⟩

theorem pow_eq_of_between (bits k : Nat) (h1 : 2 ^ (bits - 1) < 2 ^ k)
    (h2 : (2 : Nat) ^ k ≤ 2 ^ bits) : k = bits := by
  have ha : bits - 1 < k := (Nat.pow_lt_pow_iff_right (by omega)).mp h1
  have hb : k ≤ bits := (Nat.pow_le_pow_iff_right (by omega)).mp h2
  omega

theorem CBInv_mono (mcs : Nat) (cb : CodeBook) (bits outlen outlen' : Nat)
    (h : CBInv mcs cb bits outlen) (hle : outlen ≤ outlen') :
    CBInv mcs cb bits outlen' := by
  obtain ⟨h1, h2, h3, h4, h5, h6⟩ := h
  exact ⟨h1, h2, h3, h4, h5, fun c o l hc => ⟨by
    have := (h6 c o l hc).1; omega, (h6 c o l hc).2⟩⟩

/-- `set_suffix` touches no field `CBInv` talks about. -/
theorem CBInv_set_suffix (mcs : Nat) (cb : CodeBook) (idx val : Nat)
    (bits outlen : Nat) (h : CBInv mcs cb bits outlen) :
    CBInv mcs (cb.set_suffix idx val) bits outlen := h

/-- Behaviour of `increment_next_index` + registration: the invariant is
    preserved and the width grows exactly when the advanced `next_index`
    is a power of two (necessarily `2 ^ bits`, above `clear_code + 2`). -/
theorem advance_and_register_spec (mcs : Nat) (cb : CodeBook)
    (bits outlen cdl : Nat) (h2 : 2 ≤ mcs) (h10 : mcs ≤ 10)
    (hInv : CBInv mcs cb bits outlen) (hcdl1 : 1 ≤ cdl)
    (hcdl : cdl ≤ outlen) :
    CBInv mcs (advance_and_register cb bits outlen cdl).1
      (advance_and_register cb bits outlen cdl).2 outlen ∧
    ((advance_and_register cb bits outlen cdl).2 = bits ∨
      (advance_and_register cb bits outlen cdl).2 = bits + 1) ∧
    ((advance_and_register cb bits outlen cdl).2 = bits + 1 ↔
      ∃ x, cb.next_index = some x ∧
        (advance_and_register cb bits outlen cdl).1.next_index = some (x + 1) ∧
        is_power_of_two (x + 1) = true ∧ 2 ^ mcs + 2 < x + 1 ∧
        x + 1 = 2 ^ bits) := by
  obtain ⟨hcc, heoi, hnone, hsome, hb12, hpref⟩ := hInv
  have hmcspow : (4 : Nat) ≤ 2 ^ mcs := by
    calc (4 : Nat) = 2 ^ 2 := by norm_num
      _ ≤ 2 ^ mcs := Nat.pow_le_pow_right (by omega) h2
  have hmcspow' : (2 : Nat) ^ mcs ≤ 1024 := by
    calc (2 : Nat) ^ mcs ≤ 2 ^ 10 := Nat.pow_le_pow_right (by omega) h10
      _ = 1024 := by norm_num
  have hregpref : ∀ (cb' : CodeBook) (idx : Nat),
      cb'.prefixes = cb.prefixes →
      ∀ c o l, (cb'.register idx (outlen - cdl, cdl)).prefixes c =
        some (o, l) → o + l ≤ outlen ∧ 1 ≤ l := by
    intro cb' idx hpr c o l hc
    simp only [CodeBook.register, hpr] at hc
    by_cases hceq : c = idx
    · rw [if_pos hceq, Option.some_inj] at hc
      injection hc with h1 h2
      subst h1
      subst h2
      omega
    · rw [if_neg hceq] at hc
      exact hpref c o l hc
  cases hni : cb.next_index with
  | none =>
    have hfull : cb.is_full = false := by
      simp [CodeBook.is_full, hni]
    have hbits : bits = mcs + 1 := hnone hni
    have hstep : cb.increment_next_index =
        ({ cb with next_index := some (cb.clear_code + 2) }, false) := by
      rw [CodeBook.increment_next_index, if_neg (by rw [hfull]; simp), hni]
    have hfull2 : ({ cb with next_index := some (cb.clear_code + 2) } :
        CodeBook).is_full = false := by
      simp only [CodeBook.is_full, MAX_CODE_VALUE, hcc]
      rw [decide_eq_false_iff_not]
      omega
    have hadv : advance_and_register cb bits outlen cdl =
        (CodeBook.register { cb with next_index := some (cb.clear_code + 2) }
          (cb.clear_code + 2) (outlen - cdl, cdl), bits) := by
      unfold advance_and_register
      rw [hstep]
      dsimp only
      rw [if_neg (by rw [hfull2]; exact Bool.false_ne_true)]
      rfl
    rw [hadv]
    refine ⟨⟨hcc, heoi, ?_, ?_, by omega, hregpref _ _ rfl⟩, Or.inl rfl, ?_⟩
    · intro h
      simp [CodeBook.register] at h
    · intro y hy
      simp only [CodeBook.register] at hy
      rw [Option.some_inj] at hy
      subst hy
      rw [hcc]
      refine ⟨le_refl _, by omega, ?_, ?_, by omega⟩
      · rw [hbits]
        simp only [Nat.add_sub_cancel]
        omega
      · rw [hbits, pow_succ]
        omega
    · constructor
      · intro h
        omega
      · rintro ⟨y, hy, -⟩
        cases hy
  | some x =>
    by_cases hxfull : 4095 ≤ x
    · -- codebook already full: nothing changes
      have hfull : cb.is_full = true := by
        simp only [CodeBook.is_full, hni, MAX_CODE_VALUE]
        rw [decide_eq_true_iff]
        omega
      have hadv : advance_and_register cb bits outlen cdl = (cb, bits) := by
        unfold advance_and_register
        rw [CodeBook.increment_next_index, if_pos hfull]
        dsimp only
        rw [if_pos hfull, if_neg Bool.false_ne_true]
      rw [hadv]
      refine ⟨⟨hcc, heoi, hnone, hsome, hb12, hpref⟩, Or.inl rfl, ?_, ?_⟩
      · intro h
        omega
      · rintro ⟨y, hy, hy', -⟩
        rw [Option.some_inj] at hy
        subst hy
        have hy'' : cb.next_index = some (x + 1) := hy'
        rw [hni, Option.some_inj] at hy''
        omega
    · -- allocate the next code
      obtain ⟨hxlo, hxhi, hxb1, hxb2, hxbits⟩ := hsome x hni
      have hfull : cb.is_full = false := by
        simp only [CodeBook.is_full, hni, MAX_CODE_VALUE]
        rw [decide_eq_false_iff_not]
        omega
      have hstep : cb.increment_next_index =
          ({ cb with next_index := some (x + 1) }, is_power_of_two (x + 1)) := by
        rw [CodeBook.increment_next_index, if_neg (by rw [hfull]; simp), hni]
      have hCBp : ∀ (cb' : CodeBook) (bits' : Nat),
          cb'.clear_code = cb.clear_code →
          cb'.end_of_information_code = cb.end_of_information_code →
          cb'.next_index = some (x + 1) →
          (∀ c o l, cb'.prefixes c = some (o, l) → o + l ≤ outlen ∧ 1 ≤ l) →
          2 ^ (bits' - 1) < x + 2 → x + 2 ≤ 2 ^ bits' → mcs + 1 ≤ bits' →
          bits' ≤ 12 →
          CBInv mcs cb' bits' outlen := by
        intro cb' bits' h1 h1' h2' h3' hb1' hb2' hb3' hb4'
        unfold CBInv
        refine ⟨h1.trans hcc, h1'.trans heoi, ?_, ?_, hb4', h3'⟩
        · intro h
          rw [h2'] at h
          cases h
        · intro y hy
          rw [h2', Option.some_inj] at hy
          subst hy
          exact ⟨by omega, by omega, hb1', hb2', hb3'⟩
      by_cases hpow : is_power_of_two (x + 1) = true
      · obtain ⟨k, hk⟩ := (is_power_of_two_iff (x + 1)).mp hpow
        have hkbits : k = bits :=
          pow_eq_of_between bits k (hk ▸ hxb1) (hk ▸ hxb2)
        have hxpow : x + 1 = 2 ^ bits := by rw [hk, hkbits]
        have hbitslt : bits < 12 := by
          have hlt : (2 : Nat) ^ bits < 2 ^ 12 := by
            have h4096 : (2 : Nat) ^ 12 = 4096 := by norm_num
            omega
          exact (Nat.pow_lt_pow_iff_right (by omega)).mp hlt
        have hbounds1 : 2 ^ (bits + 1 - 1) < x + 2 := by
          simp only [Nat.add_sub_cancel]
          omega
        have hbounds2 : x + 2 ≤ 2 ^ (bits + 1) := by
          rw [pow_succ]
          omega
        by_cases hnf : ({ cb with next_index := some (x + 1) } :
            CodeBook).is_full = true
        · have hadv : advance_and_register cb bits outlen cdl =
              ({ cb with next_index := some (x + 1) }, bits + 1) := by
            unfold advance_and_register
            rw [hstep]
            dsimp only
            rw [if_pos hnf, if_pos hpow]
          rw [hadv]
          refine ⟨hCBp _ _ rfl rfl rfl hpref hbounds1 hbounds2 (by omega)
            (by omega), Or.inr rfl, ?_, ?_⟩
          · intro _
            exact ⟨x, rfl, rfl, hpow, by omega, hxpow⟩
          · intro _
            rfl
        · have hadv : advance_and_register cb bits outlen cdl =
              (CodeBook.register { cb with next_index := some (x + 1) }
                (x + 1) (outlen - cdl, cdl), bits + 1) := by
            unfold advance_and_register
            rw [hstep]
            dsimp only
            rw [if_neg hnf, if_pos hpow]
            rfl
          rw [hadv]
          refine ⟨hCBp _ _ rfl rfl rfl (hregpref _ _ rfl) hbounds1 hbounds2
            (by omega) (by omega), Or.inr rfl, ?_, ?_⟩
          · intro _
            exact ⟨x, rfl, rfl, hpow, by omega, hxpow⟩
          · intro _
            rfl
      · have hxne : x + 1 ≠ 2 ^ bits := by
          intro hcon
          exact hpow ((is_power_of_two_iff (x + 1)).mpr ⟨bits, hcon⟩)
        have hpow' : is_power_of_two (x + 1) = false := by
          rw [Bool.eq_false_iff]
          exact hpow
        have hbounds1 : 2 ^ (bits - 1) < x + 2 := by omega
        have hbounds2 : x + 2 ≤ 2 ^ bits := by omega
        by_cases hnf : ({ cb with next_index := some (x + 1) } :
            CodeBook).is_full = true
        · have hadv : advance_and_register cb bits outlen cdl =
              ({ cb with next_index := some (x + 1) }, bits) := by
            unfold advance_and_register
            rw [hstep]
            dsimp only
            rw [if_pos hnf, if_neg (by rw [hpow']; exact Bool.false_ne_true)]
          rw [hadv]
          refine ⟨hCBp _ _ rfl rfl rfl hpref hbounds1 hbounds2 (by omega)
            (by omega), Or.inl rfl, ?_, ?_⟩
          · intro h
            omega
          · rintro ⟨y, hy, -, hypow, -, -⟩
            rw [Option.some_inj] at hy
            subst hy
            exact absurd hypow hpow
        · have hadv : advance_and_register cb bits outlen cdl =
              (CodeBook.register { cb with next_index := some (x + 1) }
                (x + 1) (outlen - cdl, cdl), bits) := by
            unfold advance_and_register
            rw [hstep]
            dsimp only
            rw [if_neg hnf, if_neg (by rw [hpow']; exact Bool.false_ne_true)]
            rfl
          rw [hadv]
          refine ⟨hCBp _ _ rfl rfl rfl (hregpref _ _ rfl) hbounds1 hbounds2
            (by omega) (by omega), Or.inl rfl, ?_, ?_⟩
          · intro h
            omega
          · rintro ⟨y, hy, -, hypow, -, -⟩
            rw [Option.some_inj] at hy
            subst hy
            exact absurd hypow hpow

/-- The invariant holds at the start of the decode loop. -/
theorem init_Inv (mcs : Nat) (data : List Nat) (h2 : 2 ≤ mcs)
    (h10 : mcs ≤ 10) : Inv mcs (init_state data mcs) := by
  refine ⟨?_, ?_, fun _ => rfl, ?_, ?_, ?_⟩
  · show 1 <<< mcs = 2 ^ mcs
    rw [Nat.shiftLeft_eq, Nat.one_mul]
  · show 1 <<< mcs + 1 = 2 ^ mcs + 1
    rw [Nat.shiftLeft_eq, Nat.one_mul]
  · intro x hx
    exact Option.noConfusion hx
  · show mcs + 1 ≤ 12
    omega
  · intro c o l hc
    exact Option.noConfusion hc

/-- One continuing iteration of the decode loop preserves the invariant,
    only appends to the output, keeps the code width at 12 or below, and
    changes the width only by the power-of-two increment (or the reset to
    `minimum_code_size + 1` on a clear code); once the codebook is full,
    a step either clears it or leaves it untouched. -/
theorem decode_step_spec (mcs : Nat) (s s' : DecodeState)
    (h2 : 2 ≤ mcs) (h10 : mcs ≤ 10) (hInv : Inv mcs s)
    (hstep : decode_step mcs s = .next s') :
    Inv mcs s' ∧
    (∃ t, s'.output = s.output ++ t) ∧
    s'.current_code_bits ≤ 12 ∧
    (s'.current_code_bits = s.current_code_bits ∨
     s'.current_code_bits = s.current_code_bits + 1 ∨
     s'.current_code_bits = mcs + 1) ∧
    (s'.current_code_bits = s.current_code_bits + 1 →
      ∃ x, s'.codebook.next_index = some (x + 1) ∧
        is_power_of_two (x + 1) = true ∧ 2 ^ mcs + 2 < x + 1 ∧
        x + 1 = 2 ^ s.current_code_bits) ∧
    (s.codebook.is_full = true →
      s'.codebook.next_index = none ∨ s'.codebook = s.codebook) := by
  have hInv' := hInv
  obtain ⟨hcc, heoi, hnone, hsome, hb12, hpref⟩ := hInv
  have hbitslo : mcs + 1 ≤ s.current_code_bits := by
    cases hni : s.codebook.next_index with
    | none => exact (hnone hni).symm.le
    | some x => exact (hsome x hni).2.2.2.2
  have hpow1024 : (2 : Nat) ^ mcs ≤ 1024 := by
    calc (2 : Nat) ^ mcs ≤ 2 ^ 10 := Nat.pow_le_pow_right (by omega) h10
      _ = 1024 := by norm_num
  rw [decode_step] at hstep
  cases hread : Bits.read_n s.reader 16 s.current_code_bits with
  | error e =>
    rw [hread] at hstep
    cases e <;> exact StepResult.noConfusion hstep
  | ok p =>
    obtain ⟨code, reader'⟩ := p
    rw [hread] at hstep
    dsimp only at hstep
    by_cases he : code = s.codebook.end_of_information_code
    · rw [if_pos he] at hstep
      exact StepResult.noConfusion hstep
    rw [if_neg he] at hstep
    by_cases hcl : code = s.codebook.clear_code
    · -- clear code: reset the codebook and the width
      rw [if_pos hcl] at hstep
      injection hstep with hs'
      subst hs'
      dsimp only
      have hclt : s.codebook.clear_code + 2 < MAX_TABLE_SIZE := by
        show s.codebook.clear_code + 2 < 4096
        rw [hcc]
        omega
      refine ⟨⟨hcc, heoi, fun _ => rfl, ?_, ?_, ?_⟩, ⟨[], by simp⟩, ?_,
        Or.inr (Or.inr rfl), ?_, fun _ => Or.inl rfl⟩
      · intro x hx
        exact Option.noConfusion hx
      · show mcs + 1 ≤ 12
        omega
      · intro c o l hc
        have hc' : (if s.codebook.clear_code + 2 < MAX_TABLE_SIZE then
            (fun _ => (none : Option (Nat × Nat))) else s.codebook.prefixes)
            c = some (o, l) := hc
        rw [if_pos hclt] at hc'
        exact Option.noConfusion hc'
      · show mcs + 1 ≤ 12
        omega
      · intro hx
        exact absurd hx (by omega)
    rw [if_neg hcl] at hstep
    by_cases hfull : s.codebook.is_full = true
    · -- full codebook: pure lookup, nothing registered
      rw [if_pos hfull] at hstep
      by_cases htl : ((match s.codebook.next_index with
          | some x => decide (x ≤ code)
          | none => false) ||
         (s.codebook.next_index.isNone &&
           decide (s.codebook.clear_code ≤ code))) = true
      · rw [if_pos htl] at hstep
        exact StepResult.noConfusion hstep
      · rw [if_neg htl] at hstep
        cases hpc : s.codebook.prefixes code with
        | some pr =>
          obtain ⟨offset, length⟩ := pr
          rw [hpc] at hstep
          dsimp only at hstep
          injection hstep with hs'
          subst hs'
          dsimp only
          refine ⟨CBInv_mono _ _ _ _ _ hInv' (by
              simp only [List.length_append]
              omega),
            ⟨(s.output.drop offset).take length ++
              [s.codebook.suffixes code], List.append_assoc _ _ _⟩,
            hb12, Or.inl rfl, ?_, fun _ => Or.inr rfl⟩
          intro hx
          exact absurd hx (by omega)
        | none =>
          rw [hpc] at hstep
          dsimp only at hstep
          injection hstep with hs'
          subst hs'
          dsimp only
          refine ⟨CBInv_mono _ _ _ _ _ hInv' (by
              simp only [List.length_append]
              omega),
            ⟨[s.codebook.suffixes code], rfl⟩,
            hb12, Or.inl rfl, ?_, fun _ => Or.inr rfl⟩
          intro hx
          exact absurd hx (by omega)
    · -- normal decode flow
      rw [if_neg hfull] at hstep
      cases hni : s.codebook.next_index with
      | none =>
        rw [hni] at hstep
        dsimp only at hstep
        by_cases hge : s.codebook.clear_code ≤ code
        · rw [if_pos hge] at hstep
          exact StepResult.noConfusion hstep
        · rw [if_neg hge] at hstep
          injection hstep with hs'
          subst hs'
          dsimp only
          have hlen1 : (1 : Nat) ≤
              (s.output ++ [s.codebook.suffixes code]).length := by
            simp only [List.length_append, List.length_cons,
              List.length_nil]
            omega
          have hmono : CBInv mcs s.codebook s.current_code_bits
              (s.output ++ [s.codebook.suffixes code]).length :=
            CBInv_mono _ _ _ _ _ hInv' (by
              simp only [List.length_append]
              omega)
          obtain ⟨hI, hd, hiff⟩ := advance_and_register_spec mcs
            s.codebook s.current_code_bits
            (s.output ++ [s.codebook.suffixes code]).length 1
            h2 h10 hmono (le_refl 1) hlen1
          refine ⟨hI, ⟨[s.codebook.suffixes code], rfl⟩,
            hI.2.2.2.2.1, ?_, ?_, fun hf => absurd hf hfull⟩
          · rcases hd with h | h
            · exact Or.inl h
            · exact Or.inr (Or.inl h)
          · intro h
            obtain ⟨x, -, hx1, hx2, hx3, hx4⟩ := hiff.mp h
            exact ⟨x, hx1, hx2, hx3, hx4⟩
      | some cic =>
        rw [hni] at hstep
        dsimp only at hstep
        by_cases hlt : code < cic
        · rw [if_pos hlt] at hstep
          cases hpc : s.codebook.prefixes code with
          | some pr =>
            obtain ⟨offset, length⟩ := pr
            rw [hpc] at hstep
            dsimp only at hstep
            injection hstep with hs'
            subst hs'
            dsimp only
            obtain ⟨hol, hl1⟩ := hpref code offset length hpc
            have houtlen : (s.output ++
                (s.output.drop offset).take length ++
                [s.codebook.suffixes code]).length =
                s.output.length + length + 1 := by
              simp only [List.length_append, List.length_take,
                List.length_drop, List.length_cons, List.length_nil]
              omega
            have hmono : CBInv mcs
                (s.codebook.set_suffix cic (s.output.getD offset 0))
                s.current_code_bits
                (s.output ++ (s.output.drop offset).take length ++
                  [s.codebook.suffixes code]).length :=
              CBInv_set_suffix _ _ _ _ _ _
                (CBInv_mono _ _ _ _ _ hInv' (by rw [houtlen]; omega))
            obtain ⟨hI, hd, hiff⟩ := advance_and_register_spec mcs
              (s.codebook.set_suffix cic (s.output.getD offset 0))
              s.current_code_bits
              (s.output ++ (s.output.drop offset).take length ++
                [s.codebook.suffixes code]).length (1 + length)
              h2 h10 hmono (by omega) (by rw [houtlen]; omega)
            refine ⟨hI, ⟨(s.output.drop offset).take length ++
                [s.codebook.suffixes code], List.append_assoc _ _ _⟩,
              hI.2.2.2.2.1, ?_, ?_, fun hf => absurd hf hfull⟩
            · rcases hd with h | h
              · exact Or.inl h
              · exact Or.inr (Or.inl h)
            · intro h
              obtain ⟨x, -, hx1, hx2, hx3, hx4⟩ := hiff.mp h
              exact ⟨x, hx1, hx2, hx3, hx4⟩
          | none =>
            rw [hpc] at hstep
            dsimp only at hstep
            injection hstep with hs'
            subst hs'
            dsimp only
            have hlen1 : (1 : Nat) ≤
                (s.output ++ [s.codebook.suffixes code]).length := by
              simp only [List.length_append, List.length_cons,
                List.length_nil]
              omega
            have hmono : CBInv mcs
                (s.codebook.set_suffix cic (s.codebook.suffixes code))
                s.current_code_bits
                (s.output ++ [s.codebook.suffixes code]).length :=
              CBInv_set_suffix _ _ _ _ _ _
                (CBInv_mono _ _ _ _ _ hInv' (by
                  simp only [List.length_append]
                  omega))
            obtain ⟨hI, hd, hiff⟩ := advance_and_register_spec mcs
              (s.codebook.set_suffix cic (s.codebook.suffixes code))
              s.current_code_bits
              (s.output ++ [s.codebook.suffixes code]).length 1
              h2 h10 hmono (le_refl 1) hlen1
            refine ⟨hI, ⟨[s.codebook.suffixes code], rfl⟩,
              hI.2.2.2.2.1, ?_, ?_, fun hf => absurd hf hfull⟩
            · rcases hd with h | h
              · exact Or.inl h
              · exact Or.inr (Or.inl h)
            · intro h
              obtain ⟨x, -, hx1, hx2, hx3, hx4⟩ := hiff.mp h
              exact ⟨x, hx1, hx2, hx3, hx4⟩
        · rw [if_neg hlt] at hstep
          by_cases heq : code = cic
          · -- the KwKwK case
            rw [if_pos heq] at hstep
            cases hpc : s.codebook.prefixes cic with
            | none =>
              rw [hpc] at hstep
              exact StepResult.noConfusion hstep
            | some pr =>
              obtain ⟨offset, length⟩ := pr
              rw [hpc] at hstep
              dsimp only at hstep
              by_cases hlen0 : length = 0
              · rw [if_pos hlen0] at hstep
                exact StepResult.noConfusion hstep
              · rw [if_neg hlen0] at hstep
                injection hstep with hs'
                subst hs'
                dsimp only
                obtain ⟨hol, hl1⟩ := hpref cic offset length hpc
                have houtlen : (s.output ++
                    (s.output.drop offset).take length ++
                    [s.output.getD offset 0]).length =
                    s.output.length + length + 1 := by
                  simp only [List.length_append, List.length_take,
                    List.length_drop, List.length_cons, List.length_nil]
                  omega
                have hmono : CBInv mcs
                    (s.codebook.set_suffix cic (s.output.getD offset 0))
                    s.current_code_bits
                    (s.output ++ (s.output.drop offset).take length ++
                      [s.output.getD offset 0]).length :=
                  CBInv_set_suffix _ _ _ _ _ _
                    (CBInv_mono _ _ _ _ _ hInv' (by rw [houtlen]; omega))
                obtain ⟨hI, hd, hiff⟩ := advance_and_register_spec mcs
                  (s.codebook.set_suffix cic (s.output.getD offset 0))
                  s.current_code_bits
                  (s.output ++ (s.output.drop offset).take length ++
                    [s.output.getD offset 0]).length (1 + length)
                  h2 h10 hmono (by omega) (by rw [houtlen]; omega)
                refine ⟨hI, ⟨(s.output.drop offset).take length ++
                    [s.output.getD offset 0], List.append_assoc _ _ _⟩,
                  hI.2.2.2.2.1, ?_, ?_, fun hf => absurd hf hfull⟩
                · rcases hd with h | h
                  · exact Or.inl h
                  · exact Or.inr (Or.inl h)
                · intro h
                  obtain ⟨x, -, hx1, hx2, hx3, hx4⟩ := hiff.mp h
                  exact ⟨x, hx1, hx2, hx3, hx4⟩
          · rw [if_neg heq] at hstep
            exact StepResult.noConfusion hstep

end LZW

----------------------------------------------------------------------------
-- formats/gif/blocks/decoding.rs
----------------------------------------------------------------------------

/-- Generic `read_n_byte::<R, n>`: a single `read` call, which for the
    slice readers the decoder uses fills `min n input.length` bytes;
    anything short of `n` is `UnexpectedEof`.  `n = 0` returns early. -/
def read_n_byte (input : List Nat) (n : Nat) :
    Except Unit (List Nat × List Nat) :=
  if n = 0 then .ok ([], input)
  else if n ≤ input.length then .ok (input.take n, input.drop n)
  else .error ()

/-- The loop of `read_subblock`: read a size byte; `0` terminates,
    otherwise `read_exact` that many bytes and append them. -/
def read_subblock_loop (acc : List Nat) (input : List Nat) :
    Except Unit (List Nat × List Nat) :=
  match input with
  | [] => .error ()
  | size :: rest =>
    if size = 0 then .ok (acc, rest)
    else if size ≤ rest.length then
      read_subblock_loop (acc ++ rest.take size) (rest.drop size)
    else .error ()
termination_by input.length
decreasing_by
  simp only [List.length_cons, List.length_drop]
  omega

/-- `read_subblock`. -/
def read_subblock (input : List Nat) : Except Unit (List Nat × List Nat) :=
  read_subblock_loop [] input

----------------------------------------------------------------------------
-- formats/gif/blocks/graphic_control_extension.rs
----------------------------------------------------------------------------

/-- `GraphicControlExtension` from `graphic_control_extension.rs`. -/
structure GraphicControlExtension where
  flags : Nat
  delay_time : Nat
  transparent_color_index : Nat
  deriving DecidableEq, Repr

namespace GraphicControlExtension

def BLOCK_SIZE : Nat := 4

/-- `GraphicControlExtensionParseError`. -/
inductive ParseError
  | Io
  | InvalidBlockSize (got : Nat)
  | InvalidBlockTerminator
  deriving DecidableEq, Repr

/-- `GraphicControlExtension::parse`: `read_exact` of `BLOCK_SIZE + 1 + 1`
    bytes (size flag + body + terminator), check the size byte and the
    terminator. -/
def parse (input : List Nat) :
    Except ParseError (GraphicControlExtension × List Nat) :=
  match input with
  | b0 :: b1 :: b2 :: b3 :: b4 :: b5 :: rest =>
    if b0 ≠ BLOCK_SIZE then .error (.InvalidBlockSize b0)
    else if b5 ≠ 0 then .error .InvalidBlockTerminator
    else .ok ({ flags := b1, delay_time := u16_from_le_bytes b2 b3,
                transparent_color_index := b4 }, rest)
  | _ => .error .Io

end GraphicControlExtension

----------------------------------------------------------------------------
-- formats/gif/blocks/table_based_image.rs
----------------------------------------------------------------------------

/-- `ImageDescriptor` from `table_based_image.rs`. -/
structure ImageDescriptor where
  image_left_position : Nat
  image_top_position : Nat
  image_width : Nat
  image_height : Nat
  flags : Nat
  deriving DecidableEq, Repr

namespace ImageDescriptor

def LOCAL_COLOR_TABLE_FLAG : Nat := 0b10000000
def INTERLACE_FLAG : Nat := 0b01000000
def SORT_FLAG : Nat := 0b00100000
def LOCAL_COLOR_TABLE_SIZE : Nat := 0b00000111
def LOCAL_COLOR_TABLE_SIZE_OFFSET : Nat := 0

def local_color_table_flag (d : ImageDescriptor) : Bool :=
  decide (d.flags &&& LOCAL_COLOR_TABLE_FLAG ≠ 0)

def interlace_flag (d : ImageDescriptor) : Bool :=
  decide (d.flags &&& INTERLACE_FLAG ≠ 0)

def sort_flag (d : ImageDescriptor) : Bool :=
  decide (d.flags &&& SORT_FLAG ≠ 0)

def local_color_table_size_flag (d : ImageDescriptor) : Nat :=
  (d.flags &&& LOCAL_COLOR_TABLE_SIZE) >>> LOCAL_COLOR_TABLE_SIZE_OFFSET

/-- `image_position()` as the pair `(left, top)`. -/
def image_position (d : ImageDescriptor) : Nat × Nat :=
  (d.image_left_position, d.image_top_position)

def image_dim (d : ImageDescriptor) : Nat × Nat :=
  (d.image_width, d.image_height)

/-- `ImageDescriptor::from(&[u8; 9])`. -/
def from_bytes (b0 b1 b2 b3 b4 b5 b6 b7 b8 : Nat) : ImageDescriptor :=
  { image_left_position := u16_from_le_bytes b0 b1
    image_top_position := u16_from_le_bytes b2 b3
    image_width := u16_from_le_bytes b4 b5
    image_height := u16_from_le_bytes b6 b7
    flags := b8 }

end ImageDescriptor

/-- `TableBasedImage`: the image descriptor, the optional local color
    table, and the LZW-decoded index data. -/
structure TableBasedImage where
  descriptor : ImageDescriptor
  color_table : Option ColorTable
  image_data : List Nat

/-- `TableBasedImageParseError`. -/
inductive TableBasedImageParseError
  | Io
  | InvalidColorTable
  | InvalidLZWCode
  deriving DecidableEq, Repr

/-- `TableBasedImage::parse`: 9 descriptor bytes (`read_n_byte`), the
    optional local color table, the minimum-code-size byte, the data
    sub-blocks and the LZW decode. -/
def TableBasedImage.parse (input : List Nat) :
    Except TableBasedImageParseError (TableBasedImage × List Nat) :=
  match read_n_byte input 9 with
  | .error _ => .error .Io
  | .ok (buf, rest) =>
    let descriptor := ImageDescriptor.from_bytes
      (buf.getD 0 0) (buf.getD 1 0) (buf.getD 2 0) (buf.getD 3 0)
      (buf.getD 4 0) (buf.getD 5 0) (buf.getD 6 0) (buf.getD 7 0)
      (buf.getD 8 0)
    let with_table : Except TableBasedImageParseError
        (Option ColorTable × List Nat) :=
      if descriptor.local_color_table_flag then
        match ColorTable.try_from_reader rest
            descriptor.local_color_table_size_flag descriptor.sort_flag with
        | .error _ => .error .InvalidColorTable
        | .ok (t, rest') => .ok (some t, rest')
      else .ok (none, rest)
    match with_table with
    | .error e => .error e
    | .ok (color_table_opt, rest) =>
      match read_n_byte rest 1 with
      | .error _ => .error .Io
      | .ok (buf1, rest) =>
        let minimum_code_size := buf1.getD 0 0
        match read_subblock rest with
        | .error _ => .error .Io
        | .ok (data, rest) =>
          match LZW.decode data minimum_code_size with
          | .error _ => .error .InvalidLZWCode
          | .ok image_data =>
            .ok ({ descriptor := descriptor, color_table := color_table_opt,
                   image_data := image_data }, rest)

----------------------------------------------------------------------------
-- errors.rs From impls used by the `?` operator in better_decoder.rs
----------------------------------------------------------------------------

/-- `From<HeaderParseError> for GIFParseError`. -/
def GIFParseError.from_header : HeaderParseError → GIFParseError
  | .Signature s => .UnknownSignature s
  | .Version s => .UnknownVersion s
  | .Io => .Io "io error during header decode"

/-- `From<ColorTableParseError> for GIFParseError`. -/
def GIFParseError.from_color_table : ColorTableParseError → GIFParseError
  | .TooLarge => .InvalidColorTable "color table to too small"
  | .NotEnoughData => .InvalidColorTable "color table to small"
  | .Io => .Io "io error during color table parse"

/-- `From<TableBasedImageParseError> for GIFParseError`. -/
def GIFParseError.from_table_based_image :
    TableBasedImageParseError → GIFParseError
  | .Io => .Io "io error during image data block read"
  | .InvalidColorTable => .InvalidColorTable "invalid local color table"
  | .InvalidLZWCode => .InvalidLZWCode

/-- `From<GraphicControlExtensionParseError> for GIFParseError`. -/
def GIFParseError.from_graphic_control :
    GraphicControlExtension.ParseError → GIFParseError
  | .Io => .Io
      "io error (likely EOF) during graphic control extension block reading/parsing"
  | .InvalidBlockSize got => .UnexpectedBlockSize got
      GraphicControlExtension.BLOCK_SIZE
  | .InvalidBlockTerminator => .InvalidBlockTerminator

----------------------------------------------------------------------------
-- better_decoder.rs: the decoder driver
----------------------------------------------------------------------------

/-- The Rust panics the decoder can hit (`todo!()`, `panic!(...)`,
    `Option::unwrap`/`expect` on `None`/`Err`). -/
inductive Panic
  | Todo
  | UnknownControlBlock
  | UnknownGraphicBlock
  | UnknownSpecialPurposeBlock
  | ExpectedBlockOfType
  | UnwrapNone
  deriving DecidableEq, Repr

/-- `GIFDecoderState` from `better_decoder.rs` (the ring buffer of
    graphic controls is a list; nothing ever writes it because
    `process_graphic_control_extension` hits `todo!()` first). -/
structure GIFDecoderState where
  global_color_table : Option ColorTable
  version : Version
  logical_dim : Nat × Nat
  color_resolution : Nat
  pixel_aspect_ration : Nat
  background_color_ration : Nat
  grammar_state : ReadNext
  graphic_controls : List GraphicControlExtension

/-- `GIFDecoder`: the state, the default color table, the image being
    assembled and the reader (a byte list). -/
structure GIFDecoder where
  state : GIFDecoderState
  default_color_table : Option ColorTable
  current_image : Option ImageBuffer
  is_animation : Bool
  reader : List Nat

/-- `GIFDecoder::new`. -/
def GIFDecoder.new (reader : List Nat) : GIFDecoder :=
  { state := { global_color_table := none
               version := .Version89a
               logical_dim := (0, 0)
               color_resolution := 0
               pixel_aspect_ration := 0
               background_color_ration := 0
               grammar_state := .Header
               graphic_controls := [] }
    default_color_table := none
    current_image := none
    is_animation := false
    reader := reader }

/-- Outcome of one `next_state` call: the next grammar state and updated
    decoder, a returned error, or a Rust panic. -/
inductive NextStateResult
  | ok (next : ReadNext) (d : GIFDecoder)
  | error (e : GIFParseError)
  | panicked (p : Panic)

/-- Outcome of a `process_*` helper. -/
inductive ProcResult
  | ok (d : GIFDecoder)
  | error (e : GIFParseError)
  | panicked (p : Panic)

/-- `GIFDecoder::process_table_based_image`: create the screen-sized image
    if absent, unwrap it, parse the table based image, pick the color
    table Local > Global > Default (an `unwrap`), and for the
    non-interlaced case draw the looked-up pixels with `put_rect` (the
    interlace branch is an empty body). -/
def process_table_based_image (d : GIFDecoder) : ProcResult :=
  let d :=
    if d.current_image.isNone then
      let img := ImageBuffer.new d.state.logical_dim.1 d.state.logical_dim.2
      { d with current_image := some img }
    else d
  match d.current_image with
  | none => .panicked .UnwrapNone
  | some image =>
    match TableBasedImage.parse d.reader with
    | .error e => .error (GIFParseError.from_table_based_image e)
    | .ok (table_based_image, rest) =>
      match (table_based_image.color_table.or
          d.state.global_color_table).or d.default_color_table with
      | none => .panicked .UnwrapNone
      | some color_table =>
        if table_based_image.descriptor.interlace_flag then
          .ok { d with reader := rest }
        else
          let pixels := table_based_image.image_data.map
            (fun color_index => color_table.lookup_fallback color_index)
          match ImageBuffer.put_rect image
              table_based_image.descriptor.image_position.1
              table_based_image.descriptor.image_position.2
              table_based_image.descriptor.image_dim.1
              table_based_image.descriptor.image_dim.2 pixels with
          | .error _ => .error .ImageDataError
          | .ok image' =>
            .ok { d with reader := rest, current_image := some image' }

/-- `GIFDecoder::process_graphic_control_extension`: parse the block and
    then hit `todo!()`. -/
def process_graphic_control_extension (d : GIFDecoder) : ProcResult :=
  match GraphicControlExtension.parse d.reader with
  | .error e => .error (GIFParseError.from_graphic_control e)
  | .ok _ => .panicked .Todo

/-- `GIFDecoder::next_state`. -/
def next_state (d : GIFDecoder) : NextStateResult :=
  match d.state.grammar_state with
  | .Header =>
    match Header.parse d.reader with
    | .error e => .error (GIFParseError.from_header e)
    | .ok (header, rest) =>
      .ok .LogicalScreenDescriptor
        { d with reader := rest
                 state := { d.state with version := header.version } }
  | .LogicalScreenDescriptor =>
    match LogicalScreenDescriptor.parse d.reader with
    | .error _ => .error (.Io "io error during header decode")
    | .ok (descriptor, rest) =>
      let d := { d with
        reader := rest
        state := { d.state with
          pixel_aspect_ration := descriptor.pixel_aspect_ratio
          logical_dim := (descriptor.logical_screen_width,
                          descriptor.logical_screen_height)
          color_resolution := descriptor.color_resolution } }
      if descriptor.global_color_table_flag then
        .ok (.GlobalColorTable descriptor.global_color_table_size
          descriptor.sort_flag) d
      else .ok (.BlockType none) d
  | .GlobalColorTable size sorted =>
    match ColorTable.try_from_reader d.reader size sorted with
    | .error e => .error (GIFParseError.from_color_table e)
    | .ok (table, rest) =>
      .ok (.BlockType none)
        { d with reader := rest
                 state := { d.state with global_color_table := some table } }
  | .BlockType restriction =>
    match next_state_block_type restriction d.reader with
    | .error e => .error e
    | .ok (next, rest) => .ok next { d with reader := rest }
  | .ExtensionType restriction =>
    match d.reader with
    | [] => .error (.Io "io error during extension label read")
    | b :: rest =>
      let label_type := BlockLabelType.from_u8 b
      if (restriction.map (fun restriction_type =>
            label_type != restriction_type)).getD false then
        .error (.UnexpectedExtensionLabel b)
      else
        let label := BlockLabel.try_from_u8 b
        match label_type with
        | .Graphic =>
          match label with
          | some block =>
            match GraphicRenderingBlocks.try_from block with
            | .ok graphic_label =>
              .ok (.GraphicsBlock graphic_label) { d with reader := rest }
            | .error _ => .panicked .ExpectedBlockOfType
          | none =>
            .ok (.GraphicsBlock .UnknownBlock) { d with reader := rest }
        | .Control =>
          match label with
          | some block =>
            match ControlBlocks.try_from block with
            | .ok control_label =>
              .ok (.ControlBlock control_label) { d with reader := rest }
            | .error _ => .panicked .ExpectedBlockOfType
          | none =>
            .ok (.ControlBlock .UnknownBlock) { d with reader := rest }
        | .SpecialPurpose =>
          match label with
          | some block =>
            match SpecialPurposeBlocks.try_from block with
            | .ok special_purpose_label =>
              .ok (.SpecialPurposeBlock special_purpose_label)
                { d with reader := rest }
            | .error _ => .panicked .ExpectedBlockOfType
          | none =>
            .ok (.SpecialPurposeBlock .UnknownBlock) { d with reader := rest }
        | .Trailer => .error (.UnexpectedExtensionLabel b)
  | .ControlBlock block_type =>
    match block_type with
    | .GraphicsControlExtension =>
      match process_graphic_control_extension d with
      | .ok d' => .ok (.BlockType none) d'
      | .error e => .error e
      | .panicked p => .panicked p
    | .UnknownBlock => .panicked .UnknownControlBlock
  | .GraphicsBlock block_type =>
    match block_type with
    | .TableBasedImage =>
      match process_table_based_image d with
      | .ok d' => .ok (.BlockType none) d'
      | .error e => .error e
      | .panicked p => .panicked p
    | .PlainTextExtension => .panicked .Todo
    | .UnknownBlock => .panicked .UnknownGraphicBlock
  | .SpecialPurposeBlock block_type =>
    match block_type with
    | .CommentExtension => .panicked .Todo
    | .ApplicationExtension => .panicked .Todo
    | .UnknownBlock => .panicked .UnknownSpecialPurposeBlock
  | .End => .ok .End d

/-- `GIFImage` from `gif.rs`. -/
inductive GIFImage
  | None
  | Single (img : ImageBuffer)
  | Animation

/-- Outcome of `GIFDecoder::decode`; `outOfFuel` is the loop-limit arm of
    the fuel-based embedding of the `while` loop (unreachable for the
    concrete inputs evaluated here, since every non-`End` iteration
    consumes input). -/
inductive DecodeResult
  | ok (img : GIFImage)
  | error (e : GIFParseError)
  | panicked (p : Panic)
  | outOfFuel

/-- The `while !seen_error && grammar_state != End` loop of `decode`,
    followed by `Ok(GIFImage::Single(self.current_image.unwrap()))`. -/
def decode_driver_loop : Nat → GIFDecoder → DecodeResult
  | 0, _ => .outOfFuel
  | fuel + 1, d =>
    if d.state.grammar_state = .End then
      match d.current_image with
      | some img => .ok (.Single img)
      | none => .panicked .UnwrapNone
    else
      match next_state d with
      | .ok read_next d' =>
        decode_driver_loop fuel
          { d' with state := { d'.state with grammar_state := read_next } }
      | .error e => .error e
      | .panicked p => .panicked p

/-- `GIFDecoder::decode`: reset the grammar state to `Header` and run the
    loop.  `2 * reader.length + 8` fuel covers any run on the given
    input. -/
def GIFDecoder.decode (d : GIFDecoder) : DecodeResult :=
  let d := { d with state := { d.state with grammar_state := .Header } }
  decode_driver_loop (2 * d.reader.length + 8) d

----------------------------------------------------------------------------
-- Claim theorems for the block parsers and the BlockType transition
----------------------------------------------------------------------------

/-- **C6.** Correctness of `LittleEndianReader::read_n::<u64>(n)` for
    `1 ≤ n ≤ 64` on any reachable reader state: when at least `n` bits
    remain it returns the integer formed by the next `n` bits of the
    little-endian bit stream (bit `i` of the result is bit `i` of the
    remaining stream, i.e. bit `cursor + i` of the input) and the new state
    carries exactly the stream shifted by `n` bits (so consecutive reads
    across byte boundaries behave as one logical shift register); when
    fewer than `n` bits remain it fails with `UnexpectedEOF`. -/
theorem read_n_spec (r : Bits.LittleEndianReader) (n : Nat) (hWF : Bits.WF r)
    (hn1 : 1 ≤ n) (hn64 : n ≤ 64) :
    (n ≤ Bits.streamLen r →
      ∃ v r', Bits.read_n r 64 n = .ok (v, r') ∧
        v = Bits.streamVal r % 2 ^ n ∧
        Bits.streamVal r' = Bits.streamVal r / 2 ^ n ∧
        Bits.streamLen r' = Bits.streamLen r - n ∧
        Bits.WF r' ∧
        ∀ i, i < n → v.testBit i = (Bits.streamVal r).testBit i) ∧
    (Bits.streamLen r < n → Bits.read_n r 64 n = .error .UnexpectedEOF) := by
  obtain ⟨v, β, L⟩ := r
  obtain ⟨hv, hβ, hL⟩ := hWF
  simp only at hv hβ hL
  by_cases hfast : n ≤ β
  · -- fast path: enough buffered bits
    have hsplit : (2 : Nat) ^ β = 2 ^ n * 2 ^ (β - n) := Bits.two_pow_split n β hfast
    have hread : Bits.read_n ⟨v, β, L⟩ 64 n =
        .ok (v % 2 ^ n, ⟨v / 2 ^ n, β - n, L⟩) := by
      rw [Bits.read_n]
      dsimp only
      rw [if_neg (by omega), if_pos hfast, Bits.take_n_eq _ n (by omega)]
    have hval : v % 2 ^ n = Bits.streamVal ⟨v, β, L⟩ % 2 ^ n := by
      simp only [Bits.streamVal]
      rw [hsplit, Nat.mul_assoc, Nat.add_mul_mod_self_left]
    constructor
    · intro _
      refine ⟨v % 2 ^ n, ⟨v / 2 ^ n, β - n, L⟩, hread, hval, ?_, ?_, ?_, ?_⟩
      · simp only [Bits.streamVal]
        rw [hsplit, Nat.mul_assoc, Nat.add_mul_div_left _ _ (Nat.two_pow_pos n)]
      · simp only [Bits.streamLen]
        omega
      · refine ⟨?_, by simp only; omega, hL⟩
        simp only
        rw [Nat.div_lt_iff_lt_mul (Nat.two_pow_pos n), Nat.mul_comm,
          ← hsplit]
        exact hv
      · intro i hi
        rw [hval, Nat.testBit_mod_two_pow]
        simp [hi]
    · intro hlen
      simp only [Bits.streamLen] at hlen
      omega
  · -- slow path: drain the buffer, pull whole bytes, read the residue
    have hβn : β < n := by omega
    have hbuf : (Bits.take_n ⟨v, β, L⟩ β).1 = v := by
      rw [Bits.take_n_eq _ β (by omega)]
      exact Nat.mod_eq_of_lt hv
    have hbufv : (Bits.take_n ⟨v, β, L⟩ β).2.value = v / 2 ^ β := by
      rw [Bits.take_n_eq _ β (by omega)]
    obtain ⟨hs, he⟩ := Bits.read_full_bytes_spec n L v β hv hL (by omega)
    constructor
    · intro hlen
      simp only [Bits.streamLen] at hlen
      obtain ⟨inter', pos', rest, hok, hi', hlt8, hpp', hp'n, hrest256, heqv,
        hlen'⟩ := hs (by omega)
      have hS : Bits.streamVal ⟨v, β, L⟩ =
          inter' + 2 ^ pos' * Bits.bytesVal rest := by
        simp only [Bits.streamVal]
        omega
      by_cases hpos : n - pos' = 0
      · -- the residual read is empty: `self.bits = 0` branch
        have hp'eq : pos' = n := by omega
        have hi'' : inter' < 2 ^ n := hp'eq ▸ hi'
        have hread : Bits.read_n ⟨v, β, L⟩ 64 n =
            .ok (inter', ⟨v / 2 ^ β, 0, rest⟩) := by
          rw [Bits.read_n]
          dsimp only
          rw [if_neg (by omega), if_neg (by omega), hbuf, hok]
          dsimp only
          rw [if_neg (by omega), hbufv, if_pos (by
            calc inter' < 2 ^ n := hi''
              _ ≤ 2 ^ 64 := Nat.pow_le_pow_right (by omega) (by omega))]
        have hvz : v / 2 ^ β = 0 := Nat.div_eq_of_lt hv
        have hinter : inter' = Bits.streamVal ⟨v, β, L⟩ % 2 ^ n := by
          rw [hS, hp'eq, Nat.add_mul_mod_self_left, Nat.mod_eq_of_lt hi'']
        refine ⟨inter', ⟨v / 2 ^ β, 0, rest⟩, hread, hinter, ?_, ?_, ?_, ?_⟩
        · have hgoal : Bits.streamVal ⟨v / 2 ^ β, 0, rest⟩ =
              Bits.bytesVal rest := by
            simp [Bits.streamVal, hvz]
          rw [hgoal, hS, hp'eq,
            Nat.add_mul_div_left _ _ (Nat.two_pow_pos n),
            Nat.div_eq_of_lt hi'']
          omega
        · simp only [Bits.streamLen]
          omega
        · exact ⟨by simp only [hvz]; omega, by simp only; omega, hrest256⟩
        · intro i hi
          rw [hinter, Nat.testBit_mod_two_pow]
          simp [hi]
      · -- a final partial byte is needed
        have hp'lt : pos' < n := by omega
        cases rest with
        | nil =>
          exfalso
          simp only [List.length_nil, Nat.mul_zero, Nat.add_zero] at hlen'
          omega
        | cons b rest' =>
          have hb : b < 256 := hrest256 b (by simp)
          have hk1 : 1 ≤ n - pos' := by omega
          have hk7 : n - pos' ≤ 7 := by omega
          have htake : Bits.take_n ⟨b, 8, rest'⟩ (n - pos') =
              (b % 2 ^ (n - pos'), ⟨b / 2 ^ (n - pos'), 8 - (n - pos'), rest'⟩) :=
            Bits.take_n_eq _ (n - pos') hk7
          have hvout : inter' ||| (b % 2 ^ (n - pos')) <<< pos' =
              inter' + 2 ^ pos' * (b % 2 ^ (n - pos')) :=
            Bits.lor_shiftLeft_eq_add _ _ _ hi'
          have hpowk : (2 : Nat) ^ n = 2 ^ pos' * 2 ^ (n - pos') := by
            rw [← pow_add]
            congr 1
            omega
          have hvoutlt : inter' + 2 ^ pos' * (b % 2 ^ (n - pos')) < 2 ^ n := by
            have h1 : b % 2 ^ (n - pos') < 2 ^ (n - pos') :=
              Nat.mod_lt _ (Nat.two_pow_pos _)
            have h1' : b % 2 ^ (n - pos') + 1 ≤ 2 ^ (n - pos') := by omega
            have h2 : 2 ^ pos' * (b % 2 ^ (n - pos') + 1) ≤
                2 ^ pos' * 2 ^ (n - pos') :=
              Nat.mul_le_mul (Nat.le_refl _) h1'
            have h3 : 2 ^ pos' * (b % 2 ^ (n - pos') + 1) =
                2 ^ pos' * (b % 2 ^ (n - pos')) + 2 ^ pos' := by ring
            rw [hpowk]
            omega
          have hSdecomp : Bits.streamVal ⟨v, β, L⟩ =
              (inter' + 2 ^ pos' * (b % 2 ^ (n - pos'))) +
                2 ^ n * (b / 2 ^ (n - pos') +
                  2 ^ (8 - (n - pos')) * Bits.bytesVal rest') := by
            rw [hS]
            simp only [Bits.bytesVal]
            have hb8 : (2 : Nat) ^ 8 = 2 ^ (n - pos') * 2 ^ (8 - (n - pos')) := by
              rw [← pow_add]
              congr 1
              omega
            have hbdm : b = b % 2 ^ (n - pos') +
                2 ^ (n - pos') * (b / 2 ^ (n - pos')) :=
              (Nat.mod_add_div b (2 ^ (n - pos'))).symm
            calc inter' + 2 ^ pos' * (b + 256 * Bits.bytesVal rest')
                = inter' + 2 ^ pos' * ((b % 2 ^ (n - pos') +
                    2 ^ (n - pos') * (b / 2 ^ (n - pos'))) +
                    (2 ^ (n - pos') * 2 ^ (8 - (n - pos'))) *
                      Bits.bytesVal rest') := by
                  rw [← hbdm, ← hb8]
                  norm_num
              _ = (inter' + 2 ^ pos' * (b % 2 ^ (n - pos'))) +
                    (2 ^ pos' * 2 ^ (n - pos')) * (b / 2 ^ (n - pos') +
                      2 ^ (8 - (n - pos')) * Bits.bytesVal rest') := by
                  ring
              _ = _ := by rw [← hpowk]
          have hread : Bits.read_n ⟨v, β, L⟩ 64 n =
              .ok (inter' + 2 ^ pos' * (b % 2 ^ (n - pos')),
                   ⟨b / 2 ^ (n - pos'), 8 - (n - pos'), rest'⟩) := by
            rw [Bits.read_n]
            dsimp only
            rw [if_neg (by omega), if_neg (by omega), hbuf, hok]
            dsimp only
            rw [if_pos (show n - pos' ≠ 0 from hpos)]
            try dsimp only
            rw [htake]
            try dsimp only
            rw [hvout, if_pos (by
              calc inter' + 2 ^ pos' * (b % 2 ^ (n - pos')) < 2 ^ n := hvoutlt
                _ ≤ 2 ^ 64 := Nat.pow_le_pow_right (by omega) (by omega))]
          have hval : inter' + 2 ^ pos' * (b % 2 ^ (n - pos')) =
              Bits.streamVal ⟨v, β, L⟩ % 2 ^ n := by
            rw [hSdecomp, Nat.add_mul_mod_self_left,
              Nat.mod_eq_of_lt hvoutlt]
          refine ⟨inter' + 2 ^ pos' * (b % 2 ^ (n - pos')),
            ⟨b / 2 ^ (n - pos'), 8 - (n - pos'), rest'⟩,
            hread, hval, ?_, ?_, ?_, ?_⟩
          · have hsv : Bits.streamVal
                ⟨b / 2 ^ (n - pos'), 8 - (n - pos'), rest'⟩ =
                b / 2 ^ (n - pos') +
                  2 ^ (8 - (n - pos')) * Bits.bytesVal rest' := rfl
            rw [hsv, hSdecomp, Nat.add_mul_div_left _ _ (Nat.two_pow_pos n),
              Nat.div_eq_of_lt hvoutlt]
            omega
          · simp only [Bits.streamLen, List.length_cons] at hlen' ⊢
            omega
          · refine ⟨?_, by simp only; omega, fun x hx => hrest256 x (by
              simp [hx])⟩
            simp only
            rw [Nat.div_lt_iff_lt_mul (Nat.two_pow_pos _), ← pow_add]
            calc b < 256 := hb
              _ = 2 ^ 8 := by norm_num
              _ ≤ 2 ^ (8 - (n - pos') + (n - pos')) := by
                apply Nat.pow_le_pow_right (by omega)
                omega
          · intro i hi
            rw [hval, Nat.testBit_mod_two_pow]
            simp [hi]
    · intro hlen
      simp only [Bits.streamLen] at hlen
      by_cases hcase : β + 8 * L.length + 8 ≤ n
      · have herr := he hcase
        rw [Bits.read_n]
        dsimp only
        rw [if_neg (by omega), if_neg (by omega), hbuf, herr]
      · obtain ⟨inter', pos', rest, hok, hi', hlt8, hpp', hp'n, hrest256,
          heqv, hlen'⟩ := hs (by omega)
        cases rest with
        | cons b rest' =>
          exfalso
          simp only [List.length_cons] at hlen'
          omega
        | nil =>
          have hpos : n - pos' ≠ 0 := by
            simp only [List.length_nil, Nat.mul_zero, Nat.add_zero] at hlen'
            omega
          rw [Bits.read_n]
          dsimp only
          rw [if_neg (by omega), if_neg (by omega), hbuf, hok]
          dsimp only
          rw [if_pos hpos]

/-- Witness for C6: reading 12 bits from the fresh reader over
    `[0xAB, 0xCD]` succeeds with the 12 low bits of the little-endian
    stream value `0xCDAB`. -/
theorem read_n_spec_witness :
    (Bits.WF ⟨0, 0, [0xAB, 0xCD]⟩ ∧ 1 ≤ 12 ∧ 12 ≤ 64 ∧
      12 ≤ Bits.streamLen ⟨0, 0, [0xAB, 0xCD]⟩) ∧
    (∃ v r', Bits.read_n ⟨0, 0, [0xAB, 0xCD]⟩ 64 12 = .ok (v, r') ∧
      v = Bits.streamVal ⟨0, 0, [0xAB, 0xCD]⟩ % 2 ^ 12 ∧
      Bits.streamVal r' = Bits.streamVal ⟨0, 0, [0xAB, 0xCD]⟩ / 2 ^ 12 ∧
      Bits.streamLen r' = Bits.streamLen ⟨0, 0, [0xAB, 0xCD]⟩ - 12 ∧
      Bits.WF r' ∧
      ∀ i, i < 12 →
        v.testBit i = (Bits.streamVal ⟨0, 0, [0xAB, 0xCD]⟩).testBit i) :=
  ⟨⟨by decide, by decide, by decide, by decide⟩,
   (read_n_spec ⟨0, 0, [0xAB, 0xCD]⟩ 12 (by decide) (by decide) (by decide)).1
     (by decide)⟩

/-- **C7.** `put_rect` fails exactly when `pixels.length < w*h`; on success,
    each canvas pixel `(x, y)` inside the intersection of the destination
    rectangle with the canvas receives `pixels[(y-oy)*w + (x-ox)]`, every
    canvas pixel outside the intersection is unchanged, every data index
    used is within `pixels`, and the dimensions are preserved (the loops
    clip instead of panicking when the rectangle leaves the canvas). -/
theorem put_rect_clips (b : EInkPi.ImageBuffer)
    (offset_x offset_y width height : Nat) (pixels : List EInkPi.RGB) :
    (pixels.length < width * height →
      b.put_rect offset_x offset_y width height pixels = .error ()) ∧
    (width * height ≤ pixels.length →
      ∃ b', b.put_rect offset_x offset_y width height pixels = .ok b' ∧
        b'.width = b.width ∧ b'.height = b.height ∧
        (∀ x y, x < b.width → y < b.height →
          b'.get_pixel x y =
            if offset_x ≤ x ∧ x < offset_x + width ∧
                offset_y ≤ y ∧ y < offset_y + height then
              pixels.getD ((y - offset_y) * width + (x - offset_x))
                EInkPi.RGB.default
            else b.get_pixel x y) ∧
        (∀ x y, x < b.width → y < b.height →
          offset_x ≤ x → x < offset_x + width →
          offset_y ≤ y → y < offset_y + height →
          (y - offset_y) * width + (x - offset_x) < pixels.length)) := by
  constructor
  · intro h
    rw [EInkPi.ImageBuffer.put_rect, if_pos h]
  · intro h
    refine ⟨_, by rw [EInkPi.ImageBuffer.put_rect, if_neg (by omega)], ?_, ?_,
      ?_, ?_⟩
    · exact (EInkPi.ImageBuffer.put_rect_y_loop_dims b.width b.height offset_x
        offset_y width height pixels b offset_y).1
    · exact (EInkPi.ImageBuffer.put_rect_y_loop_dims b.width b.height offset_x
        offset_y width height pixels b offset_y).2
    · intro x y hx hy
      rw [EInkPi.ImageBuffer.put_rect_y_loop_get b.width b.height offset_x
        offset_y width height pixels b offset_y x y hx rfl]
      by_cases hc : offset_x ≤ x ∧ x < offset_x + width ∧
          offset_y ≤ y ∧ y < offset_y + height
      · rw [if_pos ⟨hc.2.2.1, hy, hc.2.2.2, hc.1, hc.2.1⟩, if_pos hc]
      · rw [if_neg (by intro hk; exact hc ⟨hk.2.2.2.1, hk.2.2.2.2, hk.1,
          hk.2.2.1⟩), if_neg hc]
    · intro x y _ _ h1 h2 h3 h4
      have hxw : x - offset_x < width := by omega
      have hyh : y - offset_y < height := by omega
      have : (y - offset_y) * width + (x - offset_x) < height * width := by
        calc (y - offset_y) * width + (x - offset_x)
            < (y - offset_y) * width + width := by omega
          _ = ((y - offset_y) + 1) * width := by ring
          _ ≤ height * width := Nat.mul_le_mul_right _ (by omega)
      calc (y - offset_y) * width + (x - offset_x) < height * width := this
        _ = width * height := Nat.mul_comm _ _
        _ ≤ pixels.length := h

/-- Witness for C7: a 2×2 canvas, a 2×2 rectangle placed at `(1, 1)` (so it
    sticks out of the canvas on both sides): the call succeeds, the single
    intersecting pixel `(1, 1)` receives `pixels[0]`, and pixel `(0, 0)` is
    unchanged. -/
theorem put_rect_clips_witness :
    4 ≤ ([⟨9, 9, 9⟩, ⟨8, 8, 8⟩, ⟨7, 7, 7⟩, ⟨6, 6, 6⟩] :
        List EInkPi.RGB).length ∧
    ∃ b', (EInkPi.ImageBuffer.new 2 2).put_rect 1 1 2 2
        [⟨9, 9, 9⟩, ⟨8, 8, 8⟩, ⟨7, 7, 7⟩, ⟨6, 6, 6⟩] = .ok b' ∧
      b'.width = 2 ∧ b'.height = 2 ∧
      b'.get_pixel 1 1 = ⟨9, 9, 9⟩ ∧
      b'.get_pixel 0 0 = (EInkPi.ImageBuffer.new 2 2).get_pixel 0 0 := by
  refine ⟨by decide, ?_⟩
  obtain ⟨b', hok, hw, hh, hget, -⟩ :=
    (put_rect_clips (EInkPi.ImageBuffer.new 2 2) 1 1 2 2
      [⟨9, 9, 9⟩, ⟨8, 8, 8⟩, ⟨7, 7, 7⟩, ⟨6, 6, 6⟩]).2 (by decide)
  refine ⟨b', hok, hw, hh, ?_, ?_⟩
  · rw [hget 1 1 (by decide) (by decide)]
    decide
  · rw [hget 0 0 (by decide) (by decide)]
    decide

/-- **C3.** The claim says `global_color_table_size()` returns
    `packed & 0b111`; in the source the mask constant is `0b0`, so the
    function returns `0` for every descriptor — in particular for
    `packed = 0b111` it returns `0`, not `0b111`. -/
theorem global_color_table_size_always_zero :
    (∀ d : LogicalScreenDescriptor, d.global_color_table_size = 0) ∧
    (LogicalScreenDescriptor.from_bytes 1 0 1 0 0b111 0 0).global_color_table_size
      ≠ 0b111 &&& 0b111 := by
  constructor
  · intro d
    simp [LogicalScreenDescriptor.global_color_table_size,
      LogicalScreenDescriptor.GLOBAL_COLOR_TABLE_SIZE_BITS,
      LogicalScreenDescriptor.GLOBAL_COLOR_TABLE_SIZE_OFFSET]
  · decide

/-- **C2.** The claim says color-table parsing reads `3 * 2^(size_flag+1)`
    bytes and `size_flag = 7` yields a valid 256-entry table; in the source
    `calculate_size 7 = 3 * 2^9 = 1536 > 256`, so parsing with
    `size_flag = 7` always fails with `TooLarge`, whatever the input. -/
theorem calculate_size_flag7_too_large :
    ColorTable.calculate_size 7 = 1536 ∧
    (∀ (input : List Nat) (sorted : Bool),
      ColorTable.try_from_reader input 7 sorted = .error .TooLarge) := by
  refine ⟨by decide, fun input sorted => ?_⟩
  simp [ColorTable.try_from_reader, ColorTable.calculate_size,
    MAX_COLOR_TABLE_SIZE]

/-- **C8.** The claim says every truncated input (including the empty
    stream) yields `NotEnoughData`; in the source the `Ok(0)` branch of
    `try_from_reader` returns the zero-filled table successfully on the
    empty stream. -/
theorem try_from_reader_empty_succeeds :
    ColorTable.try_from_reader [] 0 false =
      .ok ({ data := fun _ => RGB.default,
             size := ColorTable.calculate_size 0,
             sorted := false }, []) := by
  rfl

/-- **C9.** The claim says a `"GIF"` header with an unknown version string
    fails with `UnknownVersion` carrying that string; in the source the
    unknown-version branch of `Header::try_from` constructs
    `HeaderParseError::Signature` with the version bytes instead. -/
theorem header_unknown_version_reports_signature (v : List Nat)
    (hlen : v.length = 3)
    (h87 : v ≠ GIF_CONST_VERSION_87A) (h89 : v ≠ GIF_CONST_VERSION_89A) :
    Header.try_from (GIF_CONST_SIGNATURE ++ v) = .error (.Signature v) := by
  have htake : (GIF_CONST_SIGNATURE ++ v).take 3 = GIF_CONST_SIGNATURE := by
    simp [GIF_CONST_SIGNATURE]
  have hdrop : (GIF_CONST_SIGNATURE ++ v).drop 3 = v := by
    simp [GIF_CONST_SIGNATURE]
  have htakev : v.take 3 = v := by
    rw [← hlen]; exact v.take_length
  simp [Header.try_from, htake, hdrop, htakev, h87, h89]

/-- Witness for C9 at the concrete header `"GIF90a"`
    (`0x47 0x49 0x46 0x39 0x30 0x61`): the result is
    `Signature("90a")`, not `Version("90a")`. -/
theorem header_unknown_version_reports_signature_witness :
    Header.try_from [0x47, 0x49, 0x46, 0x39, 0x30, 0x61] =
      .error (.Signature [0x39, 0x30, 0x61]) :=
  header_unknown_version_reports_signature [0x39, 0x30, 0x61]
    (by decide) (by decide) (by decide)

/-- **C1.** The claim says that in state `BlockType(Some(Graphic))` the
    image separator `0x2C` is accepted and the trailer `0x3B` rejected; the
    source's `is_some_and(can_be_type)` check is inverted, so `0x2C` is
    rejected with `UnexpectedBlockDiscriminant` and `0x3B` is accepted,
    transitioning to `End`. -/
theorem block_type_graphic_restriction_inverted :
    (∀ rest : List Nat,
      next_state_block_type (some .Graphic) (0x2C :: rest) =
        .error (.UnexpectedBlockDiscriminant 0x2C)) ∧
    (∀ rest : List Nat,
      next_state_block_type (some .Graphic) (0x3B :: rest) =
        .ok (.End, rest)) := by
  constructor
  · intro rest
    rfl
  · intro rest
    rfl

/-- **C5.** Invariant of the LZW decode loop (code width): the loop-state
    invariant holds initially and is preserved by every continuing
    iteration; `current_code_bits` never exceeds 12; across one iteration
    it is unchanged, incremented by one, or reset to
    `minimum_code_size + 1` (clear code); it is incremented exactly when
    the advanced `next_index` is a power of two above `clear_code + 2`,
    namely `2 ^ current_code_bits`; and once the codebook is full a step
    either clears it or leaves it completely unchanged (no new entries). -/
theorem lzw_code_width_invariant (mcs : Nat) (h2 : 2 ≤ mcs)
    (h10 : mcs ≤ 10) :
    (∀ data, LZW.Inv mcs (LZW.init_state data mcs)) ∧
    (∀ s s', LZW.Inv mcs s → LZW.decode_step mcs s = .next s' →
      LZW.Inv mcs s' ∧
      s'.current_code_bits ≤ 12 ∧
      (s'.current_code_bits = s.current_code_bits ∨
       s'.current_code_bits = s.current_code_bits + 1 ∨
       s'.current_code_bits = mcs + 1) ∧
      (s'.current_code_bits = s.current_code_bits + 1 →
        ∃ x, s'.codebook.next_index = some (x + 1) ∧
          LZW.is_power_of_two (x + 1) = true ∧ 2 ^ mcs + 2 < x + 1 ∧
          x + 1 = 2 ^ s.current_code_bits) ∧
      (s.codebook.is_full = true →
        s'.codebook.next_index = none ∨ s'.codebook = s.codebook)) := by
  refine ⟨fun data => LZW.init_Inv mcs data h2 h10,
    fun s s' hI hstep => ?_⟩
  obtain ⟨a, -, c, d, e, f⟩ := LZW.decode_step_spec mcs s s' h2 h10 hI hstep
  exact ⟨a, c, d, e, f⟩

/-- A concrete decode-loop state for the C5 witness: `minimum_code_size
    = 2`, input byte `0x04`, whose low three bits hold the clear code
    `0b100`. -/
def lzwWitState : LZW.DecodeState := LZW.init_state [0x04] 2

/-- The state after the first iteration on `lzwWitState` (a clear-code
    step). -/
def lzwWitNext : LZW.DecodeState :=
  match LZW.decode_step 2 lzwWitState with
  | .next s => s
  | _ => lzwWitState

/-- Witness for C5: at `minimum_code_size = 2` on input `[0x04]` the
    invariant holds initially, the first iteration (a clear code) is a
    continuing step, the invariant is preserved and the width is reset to
    `3 = minimum_code_size + 1 ≤ 12`. -/
theorem lzw_code_width_invariant_witness :
    LZW.Inv 2 (LZW.init_state [0x04] 2) ∧
    LZW.Inv 2 lzwWitNext ∧ lzwWitNext.current_code_bits ≤ 12 ∧
    lzwWitNext.current_code_bits = 3 := by
  have h := lzw_code_width_invariant 2 (by decide) (by decide)
  have hstep : LZW.decode_step 2 lzwWitState = .next lzwWitNext := by rfl
  have hnext := h.2 lzwWitState lzwWitNext (h.1 [0x04]) hstep
  exact ⟨h.1 [0x04], hnext.1, hnext.2.1, rfl⟩

/-- **C10.** Safety invariant of the LZW decode loop (prefix slices): the
    loop-state invariant holds initially, is preserved by every continuing
    iteration which moreover only appends to the output; and under the
    invariant every registered prefix entry `Some((offset, length))`
    denotes a nonempty in-bounds slice of the output: `offset + length ≤
    output.len()`, `offset < output.len()` (so `output[offset]` is in
    bounds) and the slice `output[offset..offset+length]` has exactly
    `length` elements, so neither access can panic. -/
theorem lzw_prefix_slices_in_bounds (mcs : Nat) (h2 : 2 ≤ mcs)
    (h10 : mcs ≤ 10) :
    (∀ data, LZW.Inv mcs (LZW.init_state data mcs)) ∧
    (∀ s s', LZW.Inv mcs s → LZW.decode_step mcs s = .next s' →
      LZW.Inv mcs s' ∧ ∃ t, s'.output = s.output ++ t) ∧
    (∀ s, LZW.Inv mcs s → ∀ c o l,
      s.codebook.prefixes c = some (o, l) →
      o + l ≤ s.output.length ∧ 1 ≤ l ∧ o < s.output.length ∧
      ((s.output.drop o).take l).length = l) := by
  refine ⟨fun data => LZW.init_Inv mcs data h2 h10,
    fun s s' hI hstep => ?_, ?_⟩
  · obtain ⟨a, b, -⟩ := LZW.decode_step_spec mcs s s' h2 h10 hI hstep
    exact ⟨a, b⟩
  · intro s hI c o l hc
    obtain ⟨-, -, -, -, -, hpref⟩ := hI
    obtain ⟨hol, hl⟩ := hpref c o l hc
    refine ⟨hol, hl, by omega, ?_⟩
    rw [List.length_take, List.length_drop]
    omega

/-- A decode-loop state for the C10 witness: `minimum_code_size = 2`,
    input byte `0x44` (clear code `100`, then code `000`). -/
def lzwWitState2a : LZW.DecodeState := LZW.init_state [0x44] 2

/-- After the first iteration (clear code). -/
def lzwWitState2b : LZW.DecodeState :=
  match LZW.decode_step 2 lzwWitState2a with
  | .next s => s
  | _ => lzwWitState2a

/-- After the second iteration (predefined code 0), which registers the
    first incomplete code `6` with prefix entry `(0, 1)`. -/
def lzwWitState2c : LZW.DecodeState :=
  match LZW.decode_step 2 lzwWitState2b with
  | .next s => s
  | _ => lzwWitState2b

/-- Witness for C10: after two iterations on `[0x44]` the codebook holds
    the prefix entry `prefix[6] = Some((0, 1))`, and the invariant carried
    through both steps shows the slice `output[0..1]` is in bounds with
    exactly one element. -/
theorem lzw_prefix_slices_in_bounds_witness :
    lzwWitState2c.codebook.prefixes 6 = some (0, 1) ∧
    0 + 1 ≤ lzwWitState2c.output.length ∧
    ((lzwWitState2c.output.drop 0).take 1).length = 1 := by
  have h := lzw_prefix_slices_in_bounds 2 (by decide) (by decide)
  have hs1 : LZW.decode_step 2 lzwWitState2a = .next lzwWitState2b := by rfl
  have hs2 : LZW.decode_step 2 lzwWitState2b = .next lzwWitState2c := by rfl
  have hI2 := (h.2.1 lzwWitState2a lzwWitState2b (h.1 [0x44]) hs1).1
  have hI3 := (h.2.1 lzwWitState2b lzwWitState2c hI2 hs2).1
  have hpr : lzwWitState2c.codebook.prefixes 6 = some (0, 1) := by rfl
  have hc := h.2.2 lzwWitState2c hI3 6 0 1 hpr
  exact ⟨hpr, hc.1, hc.2.2.2⟩

/-- **C4.** The claim says decoding the 14-byte stream (header
    `47 49 46 38 39 61`, logical screen descriptor `01 00 01 00 00 00 00`,
    trailer `3B`) succeeds with a `Single` 1×1 black image and does not
    panic.  The source driver parses header, descriptor and trailer,
    reaches `End` without ever having seen an image descriptor — so
    `current_image` is still `None` — and then panics unwrapping it in
    `Ok(GIFImage::Single(self.current_image.unwrap()))`. -/
theorem decode_minimal_stream_panics :
    (GIFDecoder.new [0x47, 0x49, 0x46, 0x38, 0x39, 0x61,
      0x01, 0x00, 0x01, 0x00, 0x00, 0x00, 0x00, 0x3B]).decode =
      .panicked .UnwrapNone := by
  rfl

end EInkPi
